import Mathlib

/-!
Verification development for the wire-protocol core of `vk_commander`
(a Valkey/Redis desktop client written in Rust).

The Rust source is shallowly embedded: Rust `&str` / `String` / `&[u8]`
buffers become `List Char` (the inputs fed to every function modelled here
are `&str`-derived, so bytes and chars coincide on the ASCII data the
theorems quantify over); machine integers become `Nat` / `Int` with the
explicit range checks that the Rust `parse` methods perform; fallible code
returns `Option` / `Except` with the source's error strings.

Sources embedded:
  * `src/utils/valkey/mod.rs`           (`find_crlf`)
  * `src/utils/valkey/valkey_value.rs`  (`ValkeyValue`, `PartialEq`, `Hash`,
                                         `to_resp`, `parse_value`,
                                         `parse_value_from_bytes`, `From<&str>`)
  * `src/utils/valkey/valkey_client.rs` (`parse_resp_value`,
                                         `count_complete_resp_messages`,
                                         `find_next_complete_message`,
                                         `split_commands`, HELLO gating)
  * `src/utils/valkey/valkey_url.rs`    (`parse_valkey_url`, timestamp
                                         rendering)
-/

/-- Rust strings and byte buffers are modelled as lists of characters. -/
abbrev Str := List Char

/-- The carriage-return character (byte 13). -/
def crC : Char := Char.ofNat 13

/-- The line-feed character (byte 10). -/
def lfC : Char := Char.ofNat 10

/-- Embeds `find_crlf` (src/utils/valkey/mod.rs) in suffix style: the source
scans `data` from index `start` for the first `i` with `data[i] = CR` and
`data[i+1] = LF` and returns `i`; here the buffer suffix `data[start..]` is
the input and the result is the pair (bytes before the CRLF, bytes after it).
`none` corresponds to the source's `None`. -/
def splitCRLF : Str → Option (Str × Str)
  | [] => none
  | [_] => none
  | c1 :: c2 :: rest =>
    if c1 = crC ∧ c2 = lfC then some ([], rest)
    else match splitCRLF (c2 :: rest) with
      | some (a, b) => some (c1 :: a, b)
      | none => none

theorem splitCRLF_length {l a b : Str} (h : splitCRLF l = some (a, b)) :
    l.length = a.length + 2 + b.length := by
  induction l generalizing a b with
  | nil => simp [splitCRLF] at h
  | cons c1 t ih =>
    match t with
    | [] => simp [splitCRLF] at h
    | c2 :: rest =>
      rw [splitCRLF] at h
      by_cases hc : c1 = crC ∧ c2 = lfC
      · rw [if_pos hc] at h
        cases h
        simp
        omega
      · rw [if_neg hc] at h
        cases heq : splitCRLF (c2 :: rest) with
        | none => rw [heq] at h; cases h
        | some p =>
          obtain ⟨a0, b0⟩ := p
          rw [heq] at h
          cases h
          have := ih heq
          simp at this ⊢
          omega

/-- `l` contains no CRLF pair (no index `i` with `l[i] = CR`, `l[i+1] = LF`),
phrased through the scanner itself. -/
def noCRLF (l : Str) : Prop := splitCRLF l = none

instance (l : Str) : Decidable (noCRLF l) := by
  unfold noCRLF; infer_instance

theorem splitCRLF_append {l t : Str} (h : noCRLF l) :
    splitCRLF (l ++ crC :: lfC :: t) = some (l, t) := by
  induction l with
  | nil => simp [splitCRLF]
  | cons c1 l1 ih =>
    unfold noCRLF at h
    cases l1 with
    | nil =>
      have hne : ¬ (c1 = crC ∧ crC = lfC) := by
        rintro ⟨h1, h2⟩; exact absurd h2 (by decide)
      simp only [List.cons_append, List.nil_append]
      rw [splitCRLF, if_neg hne]
      simp [splitCRLF]
    | cons c2 rest =>
      rw [splitCRLF] at h
      by_cases hc : c1 = crC ∧ c2 = lfC
      · rw [if_pos hc] at h; cases h
      · rw [if_neg hc] at h
        have hr : splitCRLF (c2 :: rest) = none := by
          cases heq : splitCRLF (c2 :: rest) with
          | none => rfl
          | some p => obtain ⟨a, b⟩ := p; rw [heq] at h; cases h
        have ih2 := ih hr
        simp only [List.cons_append] at ih2 ⊢
        rw [splitCRLF, if_neg hc]
        rw [ih2]

/-- Numeric value of an ASCII digit, `none` on any other character. -/
def digitVal (c : Char) : Option Nat :=
  if c.toNat ≥ 48 ∧ c.toNat ≤ 57 then some (c.toNat - 48) else none

/-- ASCII digit character for a digit value (values ≥ 9 clamp to the digit 9;
only `d < 10` is ever used). -/
def digitChar10 (d : Nat) : Char :=
  match d with
  | 0 => '0' | 1 => '1' | 2 => '2' | 3 => '3' | 4 => '4'
  | 5 => '5' | 6 => '6' | 7 => '7' | 8 => '8' | _ => '9'

/-- Accumulator loop shared by the embeddings of Rust's string-to-integer
parsing (`str::parse` for the unsigned part): fails on the first non-digit. -/
def parseNatCore : Str → Nat → Option Nat
  | [], acc => some acc
  | c :: r, acc =>
    match digitVal c with
    | some d => parseNatCore r (acc * 10 + d)
    | none => none

/-- Digit run to `Nat`; `none` when empty or containing a non-digit, as Rust's
integer parsing rejects an empty digit sequence. -/
def parseNatDigits (l : Str) : Option Nat :=
  match l with
  | [] => none
  | _ => parseNatCore l 0

/-- Little-endian digit list of `n` (auxiliary for `natRepr`). -/
def natDigitsRev (n : Nat) : List Char :=
  if h : n < 10 then [digitChar10 n]
  else digitChar10 (n % 10) :: natDigitsRev (n / 10)
  decreasing_by exact Nat.div_lt_self (by omega) (by omega)

/-- Embeds the `Display` rendering of a Rust unsigned integer (ASCII decimal,
no sign, no leading zeros). -/
def natRepr (n : Nat) : Str := (natDigitsRev n).reverse

theorem digitVal_digitChar10 {d : Nat} (h : d < 10) :
    digitVal (digitChar10 d) = some d := by
  interval_cases d <;> decide

theorem digitChar10_isDigit {d : Nat} (h : d < 10) :
    (digitChar10 d).toNat ≥ 48 ∧ (digitChar10 d).toNat ≤ 57 := by
  interval_cases d <;> decide

theorem parseNatCore_append (a b : Str) (acc : Nat) :
    parseNatCore (a ++ b) acc =
      (parseNatCore a acc).bind (parseNatCore b) := by
  induction a generalizing acc with
  | nil => simp [parseNatCore]
  | cons c r ih =>
    simp only [List.cons_append, parseNatCore]
    cases digitVal c with
    | none => simp
    | some d => simp [ih]

theorem parseNatCore_natDigitsRev (n acc : Nat) :
    parseNatCore (natDigitsRev n).reverse acc =
      some (acc * 10 ^ (natDigitsRev n).length + n) := by
  induction n using Nat.strong_induction_on generalizing acc with
  | _ n ih =>
    by_cases h : n < 10
    · rw [natDigitsRev, dif_pos h]
      simp [parseNatCore, digitVal_digitChar10 h]
    · rw [natDigitsRev, dif_neg h]
      have hd : n / 10 < n := Nat.div_lt_self (by omega) (by omega)
      simp only [List.reverse_cons]
      rw [parseNatCore_append, ih (n / 10) hd acc]
      simp only [Option.some_bind, parseNatCore,
        digitVal_digitChar10 (Nat.mod_lt n (by omega : 0 < 10)), List.length_cons]
      rw [pow_succ]
      congr 1
      have h2 : n / 10 * 10 + n % 10 = n := by omega
      calc (acc * 10 ^ (natDigitsRev (n / 10)).length + n / 10) * 10 + n % 10
          = acc * (10 ^ (natDigitsRev (n / 10)).length * 10) +
            (n / 10 * 10 + n % 10) := by ring
        _ = acc * (10 ^ (natDigitsRev (n / 10)).length * 10) + n := by rw [h2]

theorem natDigitsRev_ne_nil (n : Nat) : natDigitsRev n ≠ [] := by
  rw [natDigitsRev]
  by_cases h : n < 10 <;> simp [h]

theorem parseNatDigits_natRepr (n : Nat) : parseNatDigits (natRepr n) = some n := by
  unfold parseNatDigits natRepr
  have hne : (natDigitsRev n).reverse ≠ [] := by
    simp [natDigitsRev_ne_nil n]
  match hh : (natDigitsRev n).reverse with
  | [] => exact absurd hh hne
  | c :: r =>
    rw [← hh]
    have := parseNatCore_natDigitsRev n 0
    simpa using this

theorem natRepr_digits {n : Nat} {c : Char} (h : c ∈ natRepr n) :
    c.toNat ≥ 48 ∧ c.toNat ≤ 57 := by
  unfold natRepr at h
  rw [List.mem_reverse] at h
  induction n using Nat.strong_induction_on with
  | _ n ih =>
    by_cases h10 : n < 10
    · rw [natDigitsRev, dif_pos h10] at h
      simp at h
      subst h
      exact digitChar10_isDigit h10
    · rw [natDigitsRev, dif_neg h10] at h
      rcases List.mem_cons.mp h with h1 | h2
      · subst h1
        exact digitChar10_isDigit (Nat.mod_lt n (by omega))
      · exact ih (n / 10) (Nat.div_lt_self (by omega) (by omega)) h2

theorem natRepr_no_cr {n : Nat} : crC ∉ natRepr n := by
  intro h
  have := natRepr_digits h
  simp [crC] at this

theorem natRepr_no_lf {n : Nat} : lfC ∉ natRepr n := by
  intro h
  have := natRepr_digits h
  simp [lfC] at this

theorem splitCRLF_some_eq {l a b : Str} (h : splitCRLF l = some (a, b)) :
    l = a ++ crC :: lfC :: b := by
  induction l generalizing a b with
  | nil => simp [splitCRLF] at h
  | cons c1 t ih =>
    match t with
    | [] => simp [splitCRLF] at h
    | c2 :: rest =>
      rw [splitCRLF] at h
      by_cases hc : c1 = crC ∧ c2 = lfC
      · rw [if_pos hc] at h
        cases h
        simp [hc.1, hc.2]
      · rw [if_neg hc] at h
        cases heq : splitCRLF (c2 :: rest) with
        | none => rw [heq] at h; cases h
        | some p =>
          obtain ⟨a0, b0⟩ := p
          rw [heq] at h
          cases h
          have := ih heq
          simp [this]

/-- A list made of characters avoiding CR (or avoiding LF) contains no CRLF. -/
theorem noCRLF_of_no_cr {l : Str} (h : crC ∉ l) : noCRLF l := by
  unfold noCRLF
  cases heq : splitCRLF l with
  | none => rfl
  | some p =>
    exfalso
    obtain ⟨a, b⟩ := p
    have := splitCRLF_some_eq heq
    apply h
    rw [this]
    simp

theorem natRepr_noCRLF (n : Nat) : noCRLF (natRepr n) := noCRLF_of_no_cr natRepr_no_cr

/-- Embeds Rust `str::parse::<i64>()`: optional `+`/`-` sign, a nonempty digit
run, value within the i64 range (overflow is a parse error). -/
def parseI64 : Str → Option Int
  | [] => none
  | c :: r =>
    if c = '-' then
      (parseNatDigits r).bind fun n =>
        if n ≤ 2 ^ 63 then some (-(n : Int)) else none
    else if c = '+' then
      (parseNatDigits r).bind fun n =>
        if n ≤ 2 ^ 63 - 1 then some (n : Int) else none
    else
      (parseNatDigits (c :: r)).bind fun n =>
        if n ≤ 2 ^ 63 - 1 then some (n : Int) else none

/-- Embeds Rust `str::parse` for an unsigned integer type with maximum value
`maxV` (`u8`: 255, `u16`, `u32`, `u64`, 64-bit `usize`): optional `+` sign,
nonempty digit run, range check. A leading `-` is rejected by the digit test. -/
def parseUnsigned (maxV : Nat) : Str → Option Nat
  | [] => none
  | c :: r =>
    if c = '+' then (parseNatDigits r).bind fun n => if n ≤ maxV then some n else none
    else (parseNatDigits (c :: r)).bind fun n => if n ≤ maxV then some n else none

def parseU8 : Str → Option Nat := parseUnsigned (2 ^ 8 - 1)
def parseU16 : Str → Option Nat := parseUnsigned (2 ^ 16 - 1)
def parseU32 : Str → Option Nat := parseUnsigned (2 ^ 32 - 1)
def parseU64 : Str → Option Nat := parseUnsigned (2 ^ 64 - 1)
def parseUsize : Str → Option Nat := parseUnsigned (2 ^ 64 - 1)

/-- Embeds the `Display` rendering of a Rust `i64` (ASCII decimal with a `-`
sign for negative values). -/
def intRepr (i : Int) : Str :=
  if i < 0 then '-' :: natRepr i.natAbs else natRepr i.toNat

theorem natRepr_head_digit (n : Nat) :
    ∃ c r, natRepr n = c :: r ∧ c.toNat ≥ 48 ∧ c.toNat ≤ 57 := by
  match hh : natRepr n with
  | [] =>
    exfalso
    have := natDigitsRev_ne_nil n
    unfold natRepr at hh
    simp at hh
    exact this hh
  | c :: r =>
    refine ⟨c, r, rfl, ?_⟩
    have : c ∈ natRepr n := by rw [hh]; simp
    exact natRepr_digits this

theorem parseI64_intRepr {i : Int} (hlo : -(2 ^ 63) ≤ i) (hhi : i ≤ 2 ^ 63 - 1) :
    parseI64 (intRepr i) = some i := by
  unfold intRepr
  by_cases hneg : i < 0
  · rw [if_pos hneg, parseI64, if_pos rfl, parseNatDigits_natRepr]
    have hb : i.natAbs ≤ 2 ^ 63 := by omega
    simp only [Option.some_bind, if_pos hb]
    congr 1
    omega
  · rw [if_neg hneg]
    obtain ⟨c, r, hcr, h48, h57⟩ := natRepr_head_digit i.toNat
    rw [hcr, parseI64]
    have hc1 : ¬ c = '-' := by
      intro h; subst h; simp at h48
    have hc2 : ¬ c = '+' := by
      intro h; subst h; simp at h48
    rw [if_neg hc1, if_neg hc2, ← hcr, parseNatDigits_natRepr]
    have hb : i.toNat ≤ 2 ^ 63 - 1 := by omega
    simp only [Option.some_bind, if_pos hb]
    congr 1
    omega

theorem parseUnsigned_natRepr {maxV n : Nat} (h : n ≤ maxV) :
    parseUnsigned maxV (natRepr n) = some n := by
  obtain ⟨c, r, hcr, h48, h57⟩ := natRepr_head_digit n
  rw [hcr, parseUnsigned]
  have hc : ¬ c = '+' := by
    intro hx; subst hx; simp at h48
  rw [if_neg hc, ← hcr, parseNatDigits_natRepr]
  simp [h]

/-- Embeds the `ValkeyValue` enum (src/utils/valkey/valkey_value.rs).
`Double(f64)` is represented by its 64-bit IEEE-754 pattern (`f64::to_bits`),
`Maps(HashMap<..>)` by its entry list, borrowed `&str` and `Vec<u8>` payloads
both by `Str`. -/
inductive RValue where
  | simpleString (s : Str)
  | simpleError (s : Str)
  | integer (i : Int)
  | bulkString (v : Str)
  | array (elems : List RValue)
  | null
  | boolean (b : Bool)
  | double (bits : Nat)
  | bigNumber (s : Str)
  | bulkErrors (e : Str)
  | verbatimString (format : Str) (data : Str)
  | maps (entries : List (RValue × RValue))
  | sets (elems : List RValue)
  | pushes (elems : List RValue)

/-- IEEE-754 binary64: the bit pattern is a NaN (exponent all ones, nonzero
mantissa). -/
def f64IsNaN (bits : Nat) : Bool := (bits / 2 ^ 52) % 2 ^ 11 = 2047 && bits % 2 ^ 52 ≠ 0

/-- IEEE-754 binary64: the bit pattern is `+0.0` or `-0.0`. -/
def f64IsZero (bits : Nat) : Bool := bits = 0 || bits = 2 ^ 63

/-- IEEE-754 equality of two binary64 bit patterns: the two zeros are equal,
NaN is unequal to everything, all other values are equal exactly on equal
bits (each non-zero finite value and each infinity has a unique pattern).
This is the meaning of Rust's `f64 == f64` used by the source's `PartialEq`. -/
def f64Eq (a b : Nat) : Bool := (f64IsZero a && f64IsZero b) || (a == b && !f64IsNaN a)

mutual
/-- Embeds `impl PartialEq for ValkeyValue` (valkey_value.rs lines 25-55).
Note the source's `(Maps(_), Maps(_)) => true` arm: any two `Maps` values
compare equal, regardless of their entries. -/
def veq : RValue → RValue → Bool
  | .simpleString a, .simpleString b => a = b
  | .simpleError a, .simpleError b => a = b
  | .integer a, .integer b => a = b
  | .bulkString a, .bulkString b => a = b
  | .array a, .array b => veqList a b
  | .null, .null => true
  | .boolean a, .boolean b => a = b
  | .double a, .double b => f64Eq a b
  | .bigNumber a, .bigNumber b => a = b
  | .bulkErrors a, .bulkErrors b => a = b
  | .verbatimString fa da, .verbatimString fb db => fa = fb && da = db
  | .maps _, .maps _ => true
  | .sets a, .sets b => veqList a b
  | .pushes a, .pushes b => veqList a b
  | _, _ => false

/-- `Vec<ValkeyValue> == Vec<ValkeyValue>`: equal lengths and elementwise
`PartialEq`. -/
def veqList : List RValue → List RValue → Bool
  | [], [] => true
  | a :: as1, b :: bs1 => veq a b && veqList as1 bs1
  | [], _ :: _ => false
  | _ :: _, [] => false
end

/-- Embeds `Vec::dedup` as called by the source on `Vec<ValkeyValue>`:
removes consecutive `PartialEq`-equal elements, keeping the first of each
run. -/
def dedupVec : List RValue → List RValue
  | [] => []
  | [a] => [a]
  | a :: b :: r => if veq a b then dedupVec (a :: r) else a :: dedupVec (b :: r)

/-- The byte words a Rust `&str` feeds to a `Hasher` (its bytes then `0xff`). -/
def strHashWords (s : Str) : List Nat := s.map Char.toNat ++ [255]

/-- The words a slice / `Vec` feeds first to a `Hasher` (its length). -/
def vecHashLen (n : Nat) : List Nat := [n]

/-- The payload bytes of a `Vec<u8>` as hash words. -/
def strBytes (s : Str) : List Nat := s.map Char.toNat

mutual
/-- Embeds `impl Hash for ValkeyValue` (valkey_value.rs lines 59-107) as the
stream of words written to the `Hasher`: the variant discriminant first, then
the payload (`Double` writes `to_bits`; `Maps` writes the fixed sentinel
`0x7fffffff`; strings write their bytes then a `0xff` terminator, vectors
write their length then their elements, as the std `Hash` impls do). -/
def hashStream : RValue → List Nat
  | .simpleString s => 0 :: strHashWords s
  | .simpleError s => 1 :: strHashWords s
  | .integer i => [2, (i + 2 ^ 64).toNat % 2 ^ 64]
  | .bulkString v => 3 :: vecHashLen v.length ++ strBytes v
  | .array vs => 4 :: vecHashLen vs.length ++ hashStreamList vs
  | .null => [5]
  | .boolean b => [6, if b then 1 else 0]
  | .double bits => [7, bits]
  | .bigNumber s => 8 :: strHashWords s
  | .bulkErrors e => 9 :: vecHashLen e.length ++ strBytes e
  | .verbatimString fm d => 10 :: strHashWords fm ++ strHashWords d
  | .maps _ => [11, 0x7fffffff]
  | .sets vs => 12 :: vecHashLen vs.length ++ hashStreamList vs
  | .pushes vs => 13 :: vecHashLen vs.length ++ hashStreamList vs

def hashStreamList : List RValue → List Nat
  | [] => []
  | v :: vs => hashStream v ++ hashStreamList vs
end

/-- The CRLF terminator. -/
def crlfS : Str := [crC, lfC]

/-- Modelled from the spec: the `Display` rendering of a Rust `f64` (the std
library's float formatting, which is not part of src/). The spec fixes the
special forms `inf`, `-inf`, `nan`; finite values are rendered through a
placeholder decimal form that no claim's theorem ever inspects (every theorem
below either excludes `Double` payloads or never reaches this function). -/
def f64Display (bits : Nat) : Str :=
  if bits = 2047 * 2 ^ 52 then ['i', 'n', 'f']
  else if bits = 2 ^ 63 + 2047 * 2 ^ 52 then ['-', 'i', 'n', 'f']
  else if f64IsNaN bits then ['N', 'a', 'N']
  else natRepr bits

/-- Modelled from the spec: Rust `str::parse::<f64>()` to a bit pattern (std
library float parsing, not part of src/). The spec fixes that `inf`, `-inf`
and `nan` are accepted; other forms go through a placeholder that no claim's
theorem ever inspects (the `,` parse branch is not exercised by any theorem
below). -/
def parseF64 (l : Str) : Option Nat :=
  if l = ['i', 'n', 'f'] then some (2047 * 2 ^ 52)
  else if l = ['-', 'i', 'n', 'f'] then some (2 ^ 63 + 2047 * 2 ^ 52)
  else if l = ['n', 'a', 'n'] then some (2047 * 2 ^ 52 + 1)
  else (parseNatDigits l).map fun n => n % 2 ^ 64

theorem dedupVec_sizeOf_le (l : List RValue) : sizeOf (dedupVec l) ≤ sizeOf l := by
  induction l using dedupVec.induct with
  | case1 => simp [dedupVec]
  | case2 a => simp [dedupVec]
  | case3 a b r hv ih =>
    rw [dedupVec, if_pos hv]
    simp at ih ⊢
    omega
  | case4 a b r hv ih =>
    rw [dedupVec, if_neg hv]
    simp at ih ⊢
    omega

mutual
/-- Embeds `impl ToResp for ValkeyValue` / `to_resp` (valkey_value.rs lines
123-178). `Maps` iterates its entries pushing the value's encoding before the
key's, as the source does; `Sets` serializes its `Vec::dedup`-ed elements;
`VerbatimString` interpolates `Display` of a `BulkString` (which is the raw
payload). -/
def to_resp : RValue → Str
  | .simpleString s => '+' :: s ++ crlfS
  | .simpleError s => '-' :: s ++ crlfS
  | .integer i => ':' :: intRepr i ++ crlfS
  | .bulkString v => '$' :: natRepr v.length ++ crlfS ++ v ++ crlfS
  | .array v => '*' :: natRepr v.length ++ crlfS ++ toRespList v
  | .null => '$' :: '-' :: '1' :: crlfS
  | .boolean b => '#' :: (if b then 't' else 'f') :: crlfS
  | .double bits => ',' :: f64Display bits ++ crlfS
  | .bigNumber s => '(' :: s ++ crlfS
  | .bulkErrors e => '!' :: natRepr e.length ++ crlfS ++ e ++ crlfS
  | .verbatimString fm d =>
    '=' :: natRepr (fm.length + d.length + 1) ++ crlfS ++ fm ++ ':' :: d ++ crlfS
  | .maps m => '%' :: natRepr m.length ++ crlfS ++ toRespMap m
  | .sets ss => '~' :: natRepr (dedupVec ss).length ++ crlfS ++ toRespList (dedupVec ss)
  | .pushes ps => '>' :: natRepr ps.length ++ crlfS ++ toRespList ps
termination_by v => sizeOf v
decreasing_by
  all_goals simp_wf
  all_goals first
    | omega
    | (have h9 := dedupVec_sizeOf_le ‹List RValue›; omega)

/-- Concatenated encodings of a vector's elements. -/
def toRespList : List RValue → Str
  | [] => []
  | v :: vs => to_resp v ++ toRespList vs
termination_by l => sizeOf l
decreasing_by
  all_goals simp_wf
  all_goals omega

/-- Concatenated encodings of map entries, each value before its key as in
the source's `Maps` arm. -/
def toRespMap : List (RValue × RValue) → Str
  | [] => []
  | (k, v) :: r => to_resp v ++ to_resp k ++ toRespMap r
termination_by m => sizeOf m
decreasing_by
  all_goals simp_wf
  all_goals omega
end

mutual
/-- Embeds `ValkeyValue::parse_value_from_bytes` (valkey_value.rs lines
326-424) in suffix style: the input is `data[start..]`, the result on success
is the parsed value plus the unconsumed suffix `data[new_pos..]` (whose
length is strictly smaller). The source's `std::str::from_utf8` conversions
are identity here because the buffer is already character data (every caller
passes a `&str`); a header that fails the numeric parse yields the same
`Invalid ...` error either way. -/
def pvbCore : (s : Str) → Except String (RValue × {t : Str // t.length < s.length})
  | [] => .error "Incomplete data"
  | c :: rest =>
    if c = '+' then
      match h : splitCRLF rest with
      | some (content, t) =>
        .ok (.simpleString content,
          ⟨t, by have := splitCRLF_length h; simp; omega⟩)
      | none => .error "Incomplete simple string"
    else if c = '-' then
      match h : splitCRLF rest with
      | some (content, t) =>
        .ok (.simpleError content,
          ⟨t, by have := splitCRLF_length h; simp; omega⟩)
      | none => .error "Incomplete simple error"
    else if c = ':' then
      match h : splitCRLF rest with
      | some (istr, t) =>
        match parseI64 istr with
        | some n =>
          .ok (.integer n, ⟨t, by have := splitCRLF_length h; simp; omega⟩)
        | none => .error "Invalid integer"
      | none => .error "Incomplete integer"
    else if c = '$' then
      match h : splitCRLF rest with
      | some (lstr, t) =>
        match parseI64 lstr with
        | some len =>
          if len < 0 then
            .ok (.null, ⟨t, by have := splitCRLF_length h; simp; omega⟩)
          else
            match h2 : t.drop len.toNat with
            | c1 :: c2 :: t3 =>
              if c1 = crC ∧ c2 = lfC then
                .ok (.bulkString (t.take len.toNat),
                  ⟨t3, by
                    have e1 := congrArg List.length h2
                    have e2 : (t.drop len.toNat).length = t.length - len.toNat :=
                      List.length_drop _ _
                    have e3 := splitCRLF_length h
                    simp at e1 ⊢
                    omega⟩)
              else .error "Incomplete bulk string data"
            | _ => .error "Incomplete bulk string data"
        | none => .error "Invalid bulk string length"
      | none => .error "Incomplete bulk string header"
    else if c = '*' then
      match h : splitCRLF rest with
      | some (cstr, t) =>
        match parseI64 cstr with
        | some count =>
          if count < 0 then
            .ok (.null, ⟨t, by have := splitCRLF_length h; simp; omega⟩)
          else
            match pvbN count.toNat t with
            | .ok (elems, t2) =>
              .ok (.array elems,
                ⟨t2.val, by
                  have := t2.property
                  have := splitCRLF_length h
                  simp
                  omega⟩)
            | .error e => .error e
        | none => .error "Invalid array count"
      | none => .error "Incomplete array header"
    else .error "Unknown RESP type"
termination_by s => (s.length, 0)
decreasing_by
  all_goals simp_wf
  all_goals
    (have h9 := splitCRLF_length h
     apply Prod.Lex.left
     simp only [List.length_cons] at h9 ⊢
     omega)

/-- The `for _ in 0..count` element loop of the `*` arm: `n` sequential
parses, threading the suffix. -/
def pvbN : (n : Nat) → (s : Str) → Except String (List RValue × {t : Str // t.length ≤ s.length})
  | 0, s => .ok ([], ⟨s, le_refl _⟩)
  | n + 1, s =>
    match pvbCore s with
    | .ok (v, t) =>
      match pvbN n t.val with
      | .ok (vs, t2) =>
        .ok (v :: vs, ⟨t2.val, by
          have := t.property
          have := t2.property
          omega⟩)
      | .error e => .error e
    | .error e => .error e
termination_by n s => (s.length, n + 1)
decreasing_by
  all_goals simp_wf
  all_goals
    (first
      | exact Prod.Lex.right _ (by omega)
      | (have h9 := t.property
         apply Prod.Lex.left
         omega))
end

/-- Embeds `ValkeyValue::parse_from_bytes`: the `(value, consumed)` pair is
represented as the value plus the unconsumed suffix (`consumed` is the input
length minus the suffix length). -/
def parse_from_bytes (s : Str) : Except String (RValue × Str) :=
  (pvbCore s).map fun p => (p.1, p.2.val)

mutual
/-- Embeds `ValkeyClient::parse_resp_value` (valkey_client.rs lines 390-542)
in suffix style: input `data[start..]`, output the suffix at `end_pos` (the
source's pair `(end_pos, consumed)` is recovered as suffix position and input
length minus suffix length). As with `pvbCore`, `std::str::from_utf8` on a
header slice is the identity here. -/
def prvCore : (s : Str) → Except String {t : Str // t.length < s.length}
  | [] => .error "Incomplete data"
  | c :: rest =>
    if c = '+' ∨ c = '-' ∨ c = ':' ∨ c = '#' ∨ c = ',' ∨ c = '(' ∨ c = '_' then
      match h : splitCRLF rest with
      | some (_, t) => .ok ⟨t, by have := splitCRLF_length h; simp; omega⟩
      | none => .error "Incomplete simple type"
    else if c = '$' then
      match h : splitCRLF rest with
      | some (lstr, t) =>
        match parseI64 lstr with
        | some len =>
          if len < 0 then
            .ok ⟨t, by have := splitCRLF_length h; simp; omega⟩
          else
            match h2 : t.drop len.toNat with
            | c1 :: c2 :: t3 =>
              if c1 = crC ∧ c2 = lfC then
                .ok ⟨t3, by
                  have e1 := congrArg List.length h2
                  have e2 : (t.drop len.toNat).length = t.length - len.toNat :=
                    List.length_drop _ _
                  have e3 := splitCRLF_length h
                  simp at e1 ⊢
                  omega⟩
              else .error "Incomplete bulk string data"
            | _ => .error "Incomplete bulk string data"
        | none => .error "Invalid bulk string length"
      | none => .error "Incomplete bulk string header"
    else if c = '*' then
      match h : splitCRLF rest with
      | some (cstr, t) =>
        match parseI64 cstr with
        | some count =>
          if count < 0 then
            .ok ⟨t, by have := splitCRLF_length h; simp; omega⟩
          else
            match prvN count.toNat t with
            | .ok t2 =>
              .ok ⟨t2.val, by
                have := t2.property
                have := splitCRLF_length h
                simp
                omega⟩
            | .error e => .error e
        | none => .error "Invalid array count"
      | none => .error "Incomplete array header"
    else if c = '!' then
      match h : splitCRLF rest with
      | some (lstr, t) =>
        match parseI64 lstr with
        | some len =>
          if len < 0 then
            .ok ⟨t, by have := splitCRLF_length h; simp; omega⟩
          else
            match h2 : t.drop len.toNat with
            | c1 :: c2 :: t3 =>
              if c1 = crC ∧ c2 = lfC then
                .ok ⟨t3, by
                  have e1 := congrArg List.length h2
                  have e2 : (t.drop len.toNat).length = t.length - len.toNat :=
                    List.length_drop _ _
                  have e3 := splitCRLF_length h
                  simp at e1 ⊢
                  omega⟩
              else .error "Incomplete bulk error data"
            | _ => .error "Incomplete bulk error data"
        | none => .error "Invalid bulk error length"
      | none => .error "Incomplete bulk error header"
    else if c = '%' then
      match h : splitCRLF rest with
      | some (lstr, t) =>
        match parseUsize lstr with
        | some len =>
          match prvMapN len t with
          | .ok t2 =>
            .ok ⟨t2.val, by
              have := t2.property
              have := splitCRLF_length h
              simp
              omega⟩
          | .error e => .error e
        | none => .error "Invalid map length"
      | none => .error "Incomplete map header"
    else if c = '~' ∨ c = '>' then
      match h : splitCRLF rest with
      | some (lstr, t) =>
        match parseUsize lstr with
        | some len =>
          match prvN len t with
          | .ok t2 =>
            .ok ⟨t2.val, by
              have := t2.property
              have := splitCRLF_length h
              simp
              omega⟩
          | .error e => .error e
        | none => .error "Invalid collection length"
      | none => .error "Incomplete collection header"
    else if c = '=' then
      match h : splitCRLF rest with
      | some (lstr, t) =>
        match parseI64 lstr with
        | some len =>
          if len < 0 then
            .ok ⟨t, by have := splitCRLF_length h; simp; omega⟩
          else
            match h2 : t.drop len.toNat with
            | c1 :: c2 :: t3 =>
              if c1 = crC ∧ c2 = lfC then
                .ok ⟨t3, by
                  have e1 := congrArg List.length h2
                  have e2 : (t.drop len.toNat).length = t.length - len.toNat :=
                    List.length_drop _ _
                  have e3 := splitCRLF_length h
                  simp at e1 ⊢
                  omega⟩
              else .error "Incomplete verbatim string data"
            | _ => .error "Incomplete verbatim string data"
        | none => .error "Invalid verbatim string length"
      | none => .error "Incomplete verbatim string header"
    else .error "Unknown RESP type"
termination_by s => (s.length, 0)
decreasing_by
  all_goals simp_wf
  all_goals
    (have h9 := splitCRLF_length h
     apply Prod.Lex.left
     simp only [List.length_cons] at h9 ⊢
     omega)

/-- The `for _ in 0..count` child loop of the `*`, `~`, `>` arms. -/
def prvN : (n : Nat) → (s : Str) → Except String {t : Str // t.length ≤ s.length}
  | 0, s => .ok ⟨s, le_refl _⟩
  | n + 1, s =>
    match prvCore s with
    | .ok t =>
      match prvN n t.val with
      | .ok t2 =>
        .ok ⟨t2.val, by
          have := t.property
          have := t2.property
          omega⟩
      | .error e => .error e
    | .error e => .error e
termination_by n s => (s.length, n + 1)
decreasing_by
  all_goals simp_wf
  all_goals
    (first
      | exact Prod.Lex.right _ (by omega)
      | (apply Prod.Lex.left
         have h9 := t.property
         omega))

/-- The `for _ in 0..len` key/value loop of the `%` arm: each iteration runs
the parser twice. -/
def prvMapN : (n : Nat) → (s : Str) → Except String {t : Str // t.length ≤ s.length}
  | 0, s => .ok ⟨s, le_refl _⟩
  | n + 1, s =>
    match prvCore s with
    | .ok t =>
      match prvCore t.val with
      | .ok t2 =>
        match prvMapN n t2.val with
        | .ok t3 =>
          .ok ⟨t3.val, by
            have := t.property
            have := t2.property
            have := t3.property
            omega⟩
        | .error e => .error e
      | .error e => .error e
    | .error e => .error e
termination_by n s => (s.length, n + 1)
decreasing_by
  all_goals simp_wf
  all_goals
    (first
      | exact Prod.Lex.right _ (by omega)
      | (apply Prod.Lex.left
         have h8 := t.property
         first
           | omega
           | (have h9 := t2.property
              omega)))
end

/-- Embeds `ValkeyClient::parse_resp_value` at the interface used by the
claims: success returns the unconsumed suffix. -/
def parse_resp_value (s : Str) : Except String Str :=
  (prvCore s).map Subtype.val

/-- Embeds `ValkeyClient::is_complete_resp_message`: one parse from offset 0
must succeed and consume the entire buffer. -/
def is_complete_resp_message (s : Str) : Bool :=
  match parse_resp_value s with
  | .ok t => t = []
  | .error _ => false

/-- Embeds `ValkeyClient::find_next_complete_message` (valkey_client.rs lines
299-307) in suffix style: the source returns `Some(start_pos + crlf_pos + 2)`
for the first `"\r\n"` found at or after `start_pos`; here the input is
`data[start_pos..]` and the result is the suffix after that CRLF. -/
def find_next_complete_message (s : Str) : Option Str :=
  (splitCRLF s).map fun p => p.2

/-- Embeds `ValkeyClient::count_complete_resp_messages` (valkey_client.rs
lines 283-297): `pos` starts at 0 and repeatedly advances past the next CRLF,
counting one "message" per advance, until no CRLF is found. Note that this
loop never invokes `parse_resp_value`. -/
def count_complete_resp_messages (s : Str) : Nat :=
  match h : find_next_complete_message s with
  | some rest =>
    count_complete_resp_messages rest + 1
  | none => 0
termination_by s.length
decreasing_by
  simp_wf
  unfold find_next_complete_message at h
  cases h2 : splitCRLF s with
  | none => rw [h2] at h; cases h
  | some p =>
    obtain ⟨a, b⟩ := p
    rw [h2] at h
    simp at h
    subst h
    have := splitCRLF_length h2
    omega

/-- The number of non-overlapping CRLF pairs in a buffer, scanning left to
right (specification-side characterization of the counter). -/
def crlfRuns : Str → Nat
  | c1 :: c2 :: r => if c1 = crC ∧ c2 = lfC then crlfRuns r + 1 else crlfRuns (c2 :: r)
  | _ => 0

theorem count_cons_not_crlf {c1 c2 : Char} {r : Str} (h : ¬ (c1 = crC ∧ c2 = lfC)) :
    count_complete_resp_messages (c1 :: c2 :: r) = count_complete_resp_messages (c2 :: r) := by
  rw [count_complete_resp_messages, count_complete_resp_messages]
  unfold find_next_complete_message
  rw [show splitCRLF (c1 :: c2 :: r) =
      (match splitCRLF (c2 :: r) with
        | some (a, b) => some (c1 :: a, b)
        | none => none) by rw [splitCRLF, if_neg h]]
  cases h2 : splitCRLF (c2 :: r) with
  | none => simp
  | some p => cases p; simp

theorem count_eq_crlfRuns (s : Str) : count_complete_resp_messages s = crlfRuns s := by
  induction s using crlfRuns.induct with
  | case1 c1 c2 r h ih =>
    rw [crlfRuns, if_pos h, count_complete_resp_messages]
    unfold find_next_complete_message
    rw [show splitCRLF (c1 :: c2 :: r) = some ([], r) by rw [splitCRLF, if_pos h]]
    simp [ih]
  | case2 c1 c2 r h ih =>
    rw [crlfRuns, if_neg h, ← ih]
    exact count_cons_not_crlf h
  | case3 s h =>
    match s with
    | [] =>
      rw [count_complete_resp_messages]
      simp [find_next_complete_message, splitCRLF, crlfRuns]
    | [c] =>
      rw [count_complete_resp_messages]
      simp [find_next_complete_message, splitCRLF, crlfRuns]
    | c1 :: c2 :: r => exact absurd rfl (h c1 c2 r)

/-- The double-quote character (byte 34). -/
def dqC : Char := Char.ofNat 34

/-- The single-quote character (byte 39). -/
def sqC : Char := Char.ofNat 39

/-- The backslash character (byte 92). -/
def bsC : Char := Char.ofNat 92

/-- The space character (byte 32). -/
def spC : Char := Char.ofNat 32

/-- The tab character (byte 9). -/
def tabC : Char := Char.ofNat 9

/-- The in-quote backslash-escape table of `split_commands`: the five mapped
escapes produce one character, any other escaped character keeps the
backslash and passes through. -/
def escMap (c : Char) : Str :=
  if c = dqC then [dqC]
  else if c = sqC then [sqC]
  else if c = bsC then [bsC]
  else if c = 'n' then [lfC]
  else if c = 't' then [tabC]
  else [bsC, c]

/-- Embeds the character loop of `ValkeyClient::split_commands`
(valkey_client.rs lines 556-605). Arguments: remaining input, the token
being built (`current_token`), the `in_quotes` flag. Returns the tokens still
to be emitted (the source accumulates them in `result`; prefixing is
equivalent). Both quote characters toggle the single `in_quotes` state; a
closing quote always emits the current token, even empty; a space outside
quotes emits only nonempty tokens; at end of input a nonempty token is
emitted. -/
def scLoop : Str → Str → Bool → List Str
  | [], cur, _ => if cur = [] then [] else [cur]
  | c :: rest, cur, inQ =>
    if c = bsC ∧ inQ then
      if rest = [] then (if cur = [] then [] else [cur])
      else scLoop rest.tail (cur ++ escMap (rest.headD spC)) inQ
    else if c = dqC ∨ c = sqC then
      if inQ then cur :: scLoop rest [] false
      else scLoop rest cur true
    else if c = spC ∧ inQ = false then
      if cur = [] then scLoop rest [] inQ
      else cur :: scLoop rest [] inQ
    else scLoop rest (cur ++ [c]) inQ
termination_by s _ _ => s.length
decreasing_by
  all_goals simp_wf
  all_goals omega

/-- Embeds `ValkeyClient::split_commands`. -/
def split_commands (s : Str) : List Str := scLoop s [] false

theorem lexHelpLe {a b n m : Nat} (hab : a ≤ b) (hnm : n < m) :
    Prod.Lex (· < ·) (· < ·) (a, n) (b, m) := by
  rcases Nat.eq_or_lt_of_le hab with he | hl
  · subst he; exact Prod.Lex.right _ hnm
  · exact Prod.Lex.left _ _ hl

theorem lexHelpLt {a b : Nat} (n m : Nat) (hab : a < b) :
    Prod.Lex (· < ·) (· < ·) (a, n) (b, m) := Prod.Lex.left _ _ hab

/-- Rust `char::is_whitespace` (the Unicode White_Space property). -/
def isWs (c : Char) : Bool :=
  let n := c.toNat
  (9 ≤ n && n ≤ 13) || n = 32 || n = 133 || n = 160 || n = 5760 ||
    (8192 ≤ n && n ≤ 8202) || n = 8232 || n = 8233 || n = 8239 || n = 8287 ||
    n = 12288

/-- Rust `str::trim_start_matches(c)`: strip every leading occurrence. -/
def trimStartMatches (c : Char) : Str → Str
  | [] => []
  | x :: r => if x = c then trimStartMatches c r else x :: r

/-- Rust `str::trim_start`. -/
def trimStart (s : Str) : Str := s.dropWhile isWs

/-- Rust `str::trim_end`. -/
def trimEnd (s : Str) : Str := (s.reverse.dropWhile isWs).reverse

/-- Rust `str::trim`. -/
def trimStr (s : Str) : Str := trimEnd (trimStart s)

/-- Rust `str::split(sep)` for a character separator (always at least one
piece; empty pieces kept). -/
def splitOnChar (sep : Char) : Str → List Str
  | [] => [[]]
  | c :: r =>
    match splitOnChar sep r with
    | h :: t => if c = sep then [] :: h :: t else (c :: h) :: t
    | [] => [[c]]

theorem dropWhile_length_le (p : Char → Bool) (s : Str) :
    (s.dropWhile p).length ≤ s.length := by
  induction s with
  | nil => simp [List.dropWhile]
  | cons c r ih =>
    rw [List.dropWhile]
    by_cases h : p c
    · simp [h]; omega
    · simp [h]

/-- One trailing carriage return stripped, as Rust `str::lines` does to each
`\n`-terminated line. -/
def stripTrailCR (s : Str) : Str :=
  match s.getLast? with
  | some c => if c = crC then s.dropLast else s
  | none => s

/-- Embeds Rust `str::lines`: split at `\n`, strip one `\r` before each such
terminator, keep a final unterminated segment as-is, and drop a final empty
segment. -/
def linesFn (s : Str) : List Str :=
  if s = [] then []
  else
    let pre := s.takeWhile (fun c => c ≠ lfC)
    match h : s.dropWhile (fun c => c ≠ lfC) with
    | [] => [pre]
    | _ :: restS => stripTrailCR pre :: linesFn restS
termination_by s.length
decreasing_by
  simp_wf
  have h2 : (List.dropWhile (fun c => decide (c ≠ lfC)) s).length ≤ s.length :=
    dropWhile_length_le _ _
  rw [h] at h2
  simp at h2
  omega

/-- `HashMap::insert` on the entry-list model: replace the value of an
existing `PartialEq`-equal key, else append a new entry. -/
def mapInsert (m : List (RValue × RValue)) (k v : RValue) : List (RValue × RValue) :=
  if m.any (fun p => veq p.1 k) then m.map fun p => if veq p.1 k then (p.1, v) else p
  else m ++ [(k, v)]

/-- `eq_ignore_ascii_case("t")`. -/
def eqIgnoreCaseT (s : Str) : Bool := s = ['t'] || s = ['T']

mutual
/-- Embeds `ValkeyValue::parse_value` (valkey_value.rs lines 181-320), the
line-iterator parser: consumes lines from the iterator; the subtype carries
the remaining lines. Missing iterator items yield `Null` (or
`SimpleError("Error")` in the `!` arm) exactly as in the source. -/
def parse_value : (ls : List Str) → RValue × {rest : List Str // rest.length ≤ ls.length}
  | [] => (.null, ⟨[], by simp⟩)
  | header :: rest =>
    let fc := header.headD '_'
    if fc = '+' then
      (.simpleString (trimEnd (trimStartMatches '+' header)), ⟨rest, by simp⟩)
    else if fc = '-' then
      (.simpleError (trimEnd (trimStartMatches '-' header)), ⟨rest, by simp⟩)
    else if fc = ':' then
      (match h9 : parseI64 (trimStr (trimStartMatches ':' header)) with
        | some n => (.integer n, ⟨rest, by simp⟩)
        | none => (.null, ⟨rest, by simp⟩))
    else if fc = '$' then
      (match h9 : parseI64 (trimStr (trimStartMatches '$' header)) with
        | some len =>
          if len < 0 then (.null, ⟨rest, by simp⟩)
          else if rest = [] then (.null, ⟨[], by simp⟩)
          else
            (.bulkString (rest.headD []),
              ⟨rest.tail, by simp [List.length_tail]; omega⟩)
        | none => (.null, ⟨rest, by simp⟩))
    else if fc = '*' then
      let count := (parseI64 (trimStr (trimStartMatches '*' header))).getD (-1)
      if count < 0 then (.null, ⟨rest, by simp⟩)
      else
        (match h9 : parseValueN count.toNat rest with
          | (elems, ⟨rest2, hr2⟩) => (.array elems, ⟨rest2, by simp; omega⟩))
    else if fc = '#' then
      (.boolean (eqIgnoreCaseT (trimStr (trimStartMatches '#' header))), ⟨rest, by simp⟩)
    else if fc = ',' then
      (match h9 : parseF64 (trimStr (trimStartMatches ',' header)) with
        | some bits => (.double bits, ⟨rest, by simp⟩)
        | none => (.null, ⟨rest, by simp⟩))
    else if fc = '(' then
      (.bigNumber (trimStr (trimStartMatches '(' header)), ⟨rest, by simp⟩)
    else if fc = '!' then
      (match h9 : parseI64 (trimStr (trimStartMatches '!' header)) with
        | some len =>
          if len < 0 then (.simpleError ['E', 'r', 'r', 'o', 'r'], ⟨rest, by simp⟩)
          else if rest = [] then (.simpleError ['E', 'r', 'r', 'o', 'r'], ⟨[], by simp⟩)
          else
            (.bulkErrors (rest.headD []),
              ⟨rest.tail, by simp [List.length_tail]; omega⟩)
        | none => (.simpleError ['E', 'r', 'r', 'o', 'r'], ⟨rest, by simp⟩))
    else if fc = '=' then
      (match h9 : parseI64 (trimStr (trimStartMatches '=' header)) with
        | some len =>
          if len < 0 then (.null, ⟨rest, by simp⟩)
          else if rest = [] then (.null, ⟨[], by simp⟩)
          else
            let parts := splitOnChar ':' (rest.headD [])
            (.verbatimString (parts.headD []) (parts.getLastD []),
              ⟨rest.tail, by simp [List.length_tail]; omega⟩)
        | none => (.null, ⟨rest, by simp⟩))
    else if fc = '%' then
      let len := (parseUsize (trimStr (trimStartMatches '%' header))).getD 0
      (match h9 : parseValueMapN len rest with
        | (pairs, ⟨rest2, hr2⟩) =>
          (.maps (pairs.foldl (fun m p => mapInsert m p.1 p.2) []),
            ⟨rest2, by simp; omega⟩))
    else if fc = '~' then
      let len := (parseUsize (trimStr (trimStartMatches '~' header))).getD 0
      (match h9 : parseValueN len rest with
        | (items, ⟨rest2, hr2⟩) => (.sets (dedupVec items), ⟨rest2, by simp; omega⟩))
    else if fc = '>' then
      let len := (parseUsize (trimStr (trimStartMatches '>' header))).getD 0
      (match h9 : parseValueN len rest with
        | (items, ⟨rest2, hr2⟩) => (.pushes items, ⟨rest2, by simp; omega⟩))
    else (.null, ⟨rest, by simp⟩)
termination_by ls => (ls.length, 0)
decreasing_by
  all_goals simp_wf
  all_goals (apply lexHelpLt; omega)

/-- The element loop of the `*`, `~`, `>` arms of `parse_value`. -/
def parseValueN : (n : Nat) → (ls : List Str) →
    List RValue × {rest : List Str // rest.length ≤ ls.length}
  | 0, ls => ([], ⟨ls, le_refl _⟩)
  | n + 1, ls =>
    match parse_value ls with
    | (v, ⟨rest1, hr1⟩) =>
      match parseValueN n rest1 with
      | (vs, ⟨rest2, hr2⟩) => (v :: vs, ⟨rest2, by omega⟩)
termination_by n ls => (ls.length, n + 1)
decreasing_by
  all_goals simp_wf
  · exact lexHelpLe (le_refl _) (by omega)
  · exact lexHelpLe hr1 (by omega)

/-- The key/value loop of the `%` arm of `parse_value`: each iteration parses
a key then a value. -/
def parseValueMapN : (n : Nat) → (ls : List Str) →
    List (RValue × RValue) × {rest : List Str // rest.length ≤ ls.length}
  | 0, ls => ([], ⟨ls, le_refl _⟩)
  | n + 1, ls =>
    match parse_value ls with
    | (k, ⟨rest1, hr1⟩) =>
      match parse_value rest1 with
      | (v, ⟨rest2, hr2⟩) =>
        match parseValueMapN n rest2 with
        | (ps, ⟨rest3, hr3⟩) => ((k, v) :: ps, ⟨rest3, by omega⟩)
termination_by n ls => (ls.length, n + 1)
decreasing_by
  all_goals simp_wf
  · exact lexHelpLe (le_refl _) (by omega)
  · exact lexHelpLe hr1 (by omega)
  · exact lexHelpLe (le_trans hr2 hr1) (by omega)
end

/-- Embeds `impl From<&str> for ValkeyValue` (valkey_value.rs lines 427-438):
try the byte parser from offset 0 (ignoring the consumed count), fall back to
the line-based parser on any error. Total: every input yields a value. -/
def valkeyFrom (s : Str) : RValue :=
  match parse_from_bytes s with
  | .ok (v, _) => v
  | .error _ => (parse_value (linesFn s)).1

/-- Embeds the `ValkeyUrl` struct (valkey_url.rs lines 4-13). `aliasName`
stands for the source field `alias`, which is a reserved word in Lean. -/
structure ValkeyUrl where
  aliasName : Option Str
  host : Str
  port : Nat
  username : Option Str
  password : Option Str
  db : Option Nat
  connection_type : Option Str
  last_connection : Option Str

/-- The leap-year rule used by `parse_valkey_url`'s timestamp rendering:
divisible by 4 and not by 100, or divisible by 400. -/
def isLeapYear (y : Nat) : Bool := (y % 4 = 0 && y % 100 ≠ 0) || y % 400 = 0

/-- The year loop of the timestamp rendering: starting from 1970, subtract
whole years (366 days for leap years) while they fit. -/
def yearLoop (year days : Nat) : Nat × Nat :=
  if days < (if isLeapYear year then 366 else 365) then (year, days)
  else yearLoop (year + 1) (days - (if isLeapYear year then 366 else 365))
termination_by days
decreasing_by
  simp_wf
  by_cases hly : isLeapYear year <;> simp [hly] at * <;> omega

/-- The month table of the timestamp rendering. -/
def daysInMonths (leap : Bool) : List Nat :=
  if leap then [31, 29, 31, 30, 31, 30, 31, 31, 30, 31, 30, 31]
  else [31, 28, 31, 30, 31, 30, 31, 31, 30, 31, 30, 31]

/-- The month loop of the timestamp rendering: month starts at 1 and
increments while whole months fit in the remaining days. -/
def monthLoop : List Nat → Nat → Nat → Nat × Nat
  | [], month, days => (month, days)
  | dim :: rest, month, days =>
    if days < dim then (month, days)
    else monthLoop rest (month + 1) (days - dim)

/-- Rust's `{:0width$}` zero-padding used in the `format!` of the timestamp. -/
def padNum (width n : Nat) : Str :=
  List.replicate (width - (natRepr n).length) '0' ++ natRepr n

/-- Embeds the Unix-epoch-to-`"YYYY-MM-DD HH:MM:SS"` rendering inside
`ValkeyUrl::parse_valkey_url` (valkey_url.rs lines 127-179). -/
def formatTimestamp (ts : Nat) : Str :=
  let days := ts / 86400
  let rem := ts % 86400
  let hours := rem / 3600
  let minutes := rem % 3600 / 60
  let seconds := rem % 60
  let yr := yearLoop 1970 days
  let ml := monthLoop (daysInMonths (isLeapYear yr.1)) 1 yr.2
  padNum 4 yr.1 ++ ['-'] ++ padNum 2 ml.1 ++ ['-'] ++ padNum 2 (ml.2 + 1) ++ [spC] ++
    padNum 2 hours ++ [':'] ++ padNum 2 minutes ++ [':'] ++ padNum 2 seconds

/-- Rust `str::find(c)` rendered as a split at the first occurrence. -/
def splitFirst (sep : Char) : Str → Option (Str × Str)
  | [] => none
  | c :: r =>
    if c = sep then some ([], r)
    else (splitFirst sep r).map fun p => (c :: p.1, p.2)

/-- Rust `str::rfind(c)` rendered as a split at the last occurrence. -/
def splitLast (sep : Char) : Str → Option (Str × Str)
  | [] => none
  | c :: r =>
    match splitLast sep r with
    | some (a, b) => some (c :: a, b)
    | none => if c = sep then some ([], r) else none

/-- One iteration of the metadata loop of `parse_valkey_url` (valkey_url.rs
lines 120-187): state is `(connection_type, last_connection)`; a `type:` pair
sets the first, a `last:` pair sets the second — rendered as a timestamp when
the value parses as `u64`, kept raw otherwise; other pairs and pairs without
a colon are skipped. -/
def metaStep (st : Option Str × Option Str) (metadata : Str) : Option Str × Option Str :=
  match splitFirst ':' metadata with
  | some (key, value) =>
    if key = ['t', 'y', 'p', 'e'] then (some value, st.2)
    else if key = ['l', 'a', 's', 't'] then
      (st.1,
        some (match parseU64 value with
          | some ts => formatTimestamp ts
          | none => value))
    else st
  | none => st

/-- The whole metadata loop. -/
def processMeta (metas : List Str) : Option Str × Option Str :=
  metas.foldl metaStep (none, none)

/-- The literal `valkey://`. -/
def valkeyUrlPrefix : Str := ['v', 'a', 'l', 'k', 'e', 'y', ':', '/', '/']

/-- Embeds `ValkeyUrl::parse_valkey_url` (valkey_url.rs lines 115-252):
split off the metadata tail at the first `|` and fold it; require the
`valkey://` prefix; split off `/db` at the first slash (parsed as `u32`,
ignored when malformed or empty); split userinfo at the first `@` (user and
password split at the first `:`, empty sides dropped); split the port at the
last `:` when it parses as `u16`, else keep the default 6379. -/
def parse_valkey_url (connection_name : Option Str) (url : Str) :
    Except String ValkeyUrl :=
  let meta := splitFirst '|' url
  let ctlc := match meta with
    | some (_, metadata_part) => processMeta (splitOnChar '|' metadata_part)
    | none => (none, none)
  let url_to_parse := match meta with
    | some (base, _) => base
    | none => url
  if url_to_parse.take 9 = valkeyUrlPrefix then
    let trimmed0 := url_to_parse.drop 9
    let dbSplit := splitFirst '/' trimmed0
    let trimmed1 := match dbSplit with | some (bef, _) => bef | none => trimmed0
    let db : Option Nat := match dbSplit with
      | some (_, af) =>
        let db_str := trimStr af
        if db_str = [] then none else parseU32 db_str
      | none => none
    let atSplit := splitFirst '@' trimmed1
    let trimmed2 := match atSplit with | some (_, af) => af | none => trimmed1
    let userpass : Option Str × Option Str := match atSplit with
      | some (userinfo, _) =>
        (match splitFirst ':' userinfo with
          | some (u, pw) =>
            ((if u = [] then none else some u), (if pw = [] then none else some pw))
          | none => ((if userinfo = [] then none else some userinfo), none))
      | none => (none, none)
    let portSplit := splitLast ':' trimmed2
    let hostport : Str × Nat := match portSplit with
      | some (bef, aft) =>
        (match parseU16 aft with
          | some pn => (bef, pn)
          | none => (trimmed2, 6379))
      | none => (trimmed2, 6379)
    .ok { aliasName := connection_name, host := hostport.1, port := hostport.2,
          username := userpass.1, password := userpass.2, db := db,
          connection_type := ctlc.1, last_connection := ctlc.2 }
  else .error "URL must start with the valkey scheme"

/-- Outcome of the HELLO-reply gating in `ValkeyClient::new`. -/
inductive HelloGate where
  | accepted
  | acceptedPartial
  | unsupportedError
  | versionParseError
deriving DecidableEq

/-- `MIN_VALKEY_VERSION` (valkey_client.rs line 16). -/
def MIN_VALKEY_VERSION : Nat × Nat × Nat := (8, 0, 0)

/-- `SUPPORTED_SERVERS` (valkey_client.rs line 17). -/
def SUPPORTED_SERVERS : List Str := [['v', 'a', 'l', 'k', 'e', 'y']]

/-- `PARTIALLY_SUPPORTED_SERVERS` (valkey_client.rs line 18). -/
def PARTIALLY_SUPPORTED_SERVERS : List Str := [['r', 'e', 'd', 'i', 's']]

/-- The `(version.split('.').next()?.parse::<u8>()?, nth(1).unwrap_or("0"),
nth(2).unwrap_or("0"))` triple of `ValkeyClient::new` (valkey_client.rs lines
119-127); `none` when any component fails the `u8` parse (the source
propagates that as a distinct conversion error, not the unsupported-server
error). -/
def versionTriple (version : Str) : Option (Nat × Nat × Nat) :=
  match splitOnChar '.' version with
  | [] => none
  | c0 :: restC =>
    match parseU8 c0, parseU8 (restC.headD ['0']), parseU8 ((restC.drop 1).headD ['0']) with
    | some a, some b, some c => some (a, b, c)
    | _, _, _ => none

/-- Rust tuple `<` on `(u8, u8, u8)`: lexicographic. -/
def tripleLt : Nat × Nat × Nat → Nat × Nat × Nat → Bool :=
  fun a b =>
    a.1 < b.1 || (a.1 = b.1 && (a.2.1 < b.2.1 || (a.2.1 = b.2.1 && a.2.2 < b.2.2)))

/-- Embeds the server/version gating of `ValkeyClient::new` (valkey_client.rs
lines 101-180) applied to the `server` and `version` entries of the HELLO
reply: versions below `MIN_VALKEY_VERSION` fail; then servers in neither
`SUPPORTED_SERVERS` nor `PARTIALLY_SUPPORTED_SERVERS` fail; a partially
supported server is accepted with a warning; otherwise accepted. -/
def helloGate (server version : Str) : HelloGate :=
  match versionTriple version with
  | none => .versionParseError
  | some vn =>
    if tripleLt vn MIN_VALKEY_VERSION then .unsupportedError
    else if ¬ server ∈ SUPPORTED_SERVERS then
      if ¬ server ∈ PARTIALLY_SUPPORTED_SERVERS then .unsupportedError
      else .acceptedPartial
    else .accepted

/-- The leading bytes `parse_resp_value` recognizes. -/
def clientSigils : List Char :=
  ['+', '-', ':', '#', ',', '(', '_', '$', '*', '!', '%', '~', '>', '=']

theorem prv_unknown {c : Char} (hc : c ∉ clientSigils) (rest : Str) :
    parse_resp_value (c :: rest) = .error "Unknown RESP type" := by
  simp only [clientSigils, List.mem_cons, List.mem_singleton, not_or] at hc
  obtain ⟨h1, h2, h3, h4, h5, h6, h7, h8, h9, h10, h11, h12, h13, h14⟩ := hc
  rw [parse_resp_value, prvCore]
  rw [if_neg (by simp [h1, h2, h3, h4, h5, h6, h7])]
  rw [if_neg h8, if_neg h9, if_neg h10, if_neg h11]
  rw [if_neg (by simp [h12, h13])]
  rw [if_neg h14.1]
  rfl

theorem prv_bulk_ok {rest lstr t : Str} {len : Int}
    (h1 : splitCRLF rest = some (lstr, t)) (h2 : parseI64 lstr = some len)
    (h3 : 0 ≤ len) {t3 : Str}
    (h4 : t.drop len.toNat = crC :: lfC :: t3) :
    parse_resp_value ('$' :: rest) = .ok t3 := by
  rw [parse_resp_value, prvCore, if_neg (by decide), if_pos rfl]
  split
  · rename_i lstr2 t2 heq
    rw [h1] at heq
    injection heq with heq2
    injection heq2 with ha hb
    subst ha hb
    rw [h2]
    simp only []
    rw [if_neg (by omega : ¬ len < 0)]
    split
    · rename_i c1 c2 t4 heq2
      rw [h4] at heq2
      injection heq2 with hc heq3
      injection heq3 with hd he
      subst hc hd he
      rw [if_pos ⟨rfl, rfl⟩]
      simp [Except.map]
    · rename_i hne
      exact absurd h4 fun hx => hne _ _ _ h4
  · rename_i heq
    rw [h1] at heq
    cases heq

theorem prv_bulk_badlen {rest lstr t : Str}
    (h1 : splitCRLF rest = some (lstr, t)) (h2 : parseI64 lstr = none) :
    parse_resp_value ('$' :: rest) = .error "Invalid bulk string length" := by
  rw [parse_resp_value, prvCore, if_neg (by decide), if_pos rfl]
  split
  · rename_i lstr2 t2 heq
    rw [h1] at heq
    injection heq with heq2
    injection heq2 with ha hb
    subst ha hb
    rw [h2]
    simp [Except.map]
  · rename_i heq
    rw [h1] at heq
    cases heq

theorem prv_bulk_unterminated {rest lstr t : Str} {len : Int}
    (h1 : splitCRLF rest = some (lstr, t)) (h2 : parseI64 lstr = some len)
    (h3 : 0 ≤ len) {c1 c2 : Char} {t3 : Str}
    (h4 : t.drop len.toNat = c1 :: c2 :: t3) (h5 : ¬ (c1 = crC ∧ c2 = lfC)) :
    parse_resp_value ('$' :: rest) = .error "Incomplete bulk string data" := by
  rw [parse_resp_value, prvCore, if_neg (by decide), if_pos rfl]
  split
  · rename_i lstr2 t2 heq
    rw [h1] at heq
    injection heq with heq2
    injection heq2 with ha hb
    subst ha hb
    rw [h2]
    simp only []
    rw [if_neg (by omega : ¬ len < 0)]
    split
    · rename_i d1 d2 t4 heq2
      rw [h4] at heq2
      injection heq2 with hc heq3
      injection heq3 with hd he
      subst hc hd he
      rw [if_neg h5]
      simp [Except.map]
    · rename_i hne
      exact absurd h4 fun hx => hne _ _ _ h4
  · rename_i heq
    rw [h1] at heq
    cases heq

/-- The leading bytes `parse_value_from_bytes` recognizes. -/
def byteSigils : List Char := ['+', '-', ':', '$', '*']

theorem pvb_empty : parse_from_bytes [] = .error "Incomplete data" := by
  rw [parse_from_bytes, pvbCore]
  rfl

theorem pvb_unknown {c : Char} (hc : c ∉ byteSigils) (rest : Str) :
    parse_from_bytes (c :: rest) = .error "Unknown RESP type" := by
  simp only [byteSigils, List.mem_cons, List.mem_singleton, not_or] at hc
  obtain ⟨h1, h2, h3, h4, h5, _⟩ := hc
  rw [parse_from_bytes, pvbCore]
  rw [if_neg h1, if_neg h2, if_neg h3, if_neg h4, if_neg h5]
  rfl

theorem pvb_simpleString_ok {rest content t : Str}
    (h1 : splitCRLF rest = some (content, t)) :
    parse_from_bytes ('+' :: rest) = .ok (.simpleString content, t) := by
  rw [parse_from_bytes, pvbCore, if_pos rfl]
  split
  · rename_i c2 t2 heq
    rw [h1] at heq
    injection heq with heq2
    injection heq2 with ha hb
    subst ha hb
    simp [Except.map]
  · rename_i heq
    rw [h1] at heq
    cases heq

theorem pvb_simpleError_ok {rest content t : Str}
    (h1 : splitCRLF rest = some (content, t)) :
    parse_from_bytes ('-' :: rest) = .ok (.simpleError content, t) := by
  rw [parse_from_bytes, pvbCore, if_neg (by decide), if_pos rfl]
  split
  · rename_i c2 t2 heq
    rw [h1] at heq
    injection heq with heq2
    injection heq2 with ha hb
    subst ha hb
    simp [Except.map]
  · rename_i heq
    rw [h1] at heq
    cases heq

theorem pvb_integer_ok {rest istr t : Str} {n : Int}
    (h1 : splitCRLF rest = some (istr, t)) (h2 : parseI64 istr = some n) :
    parse_from_bytes (':' :: rest) = .ok (.integer n, t) := by
  rw [parse_from_bytes, pvbCore, if_neg (by decide), if_neg (by decide), if_pos rfl]
  split
  · rename_i c2 t2 heq
    rw [h1] at heq
    injection heq with heq2
    injection heq2 with ha hb
    subst ha hb
    rw [h2]
    simp [Except.map]
  · rename_i heq
    rw [h1] at heq
    cases heq

theorem pvb_bulk_ok {rest lstr t : Str} {len : Int}
    (h1 : splitCRLF rest = some (lstr, t)) (h2 : parseI64 lstr = some len)
    (h3 : 0 ≤ len) {t3 : Str}
    (h4 : t.drop len.toNat = crC :: lfC :: t3) :
    parse_from_bytes ('$' :: rest) = .ok (.bulkString (t.take len.toNat), t3) := by
  rw [parse_from_bytes, pvbCore, if_neg (by decide), if_neg (by decide),
    if_neg (by decide), if_pos rfl]
  split
  · rename_i lstr2 t2 heq
    rw [h1] at heq
    injection heq with heq2
    injection heq2 with ha hb
    subst ha hb
    rw [h2]
    simp only []
    rw [if_neg (by omega : ¬ len < 0)]
    split
    · rename_i c1 c2 t4 heq2
      rw [h4] at heq2
      injection heq2 with hc heq3
      injection heq3 with hd he
      subst hc hd he
      rw [if_pos ⟨rfl, rfl⟩]
      simp [Except.map]
    · rename_i hne
      exact absurd h4 fun hx => hne _ _ _ h4
  · rename_i heq
    rw [h1] at heq
    cases heq

theorem pvb_bulk_null {rest lstr t : Str} {len : Int}
    (h1 : splitCRLF rest = some (lstr, t)) (h2 : parseI64 lstr = some len)
    (h3 : len < 0) :
    parse_from_bytes ('$' :: rest) = .ok (.null, t) := by
  rw [parse_from_bytes, pvbCore, if_neg (by decide), if_neg (by decide),
    if_neg (by decide), if_pos rfl]
  split
  · rename_i lstr2 t2 heq
    rw [h1] at heq
    injection heq with heq2
    injection heq2 with ha hb
    subst ha hb
    rw [h2]
    simp only []
    rw [if_pos h3]
    simp [Except.map]
  · rename_i heq
    rw [h1] at heq
    cases heq

/-- `pvbN` with the subtype erased. -/
def pvbNFun (n : Nat) (s : Str) : Except String (List RValue × Str) :=
  (pvbN n s).map fun p => (p.1, p.2.val)

theorem pvbNFun_zero (s : Str) : pvbNFun 0 s = .ok ([], s) := by
  rw [pvbNFun, pvbN]
  rfl

theorem pvbNFun_succ (n : Nat) (s : Str) :
    pvbNFun (n + 1) s =
      (match parse_from_bytes s with
        | .ok (v, t) =>
          (match pvbNFun n t with
            | .ok (vs, t2) => .ok (v :: vs, t2)
            | .error e => .error e)
        | .error e => .error e) := by
  rw [pvbNFun, pvbN]
  cases hres : pvbCore s with
  | ok p =>
    obtain ⟨v, t, ht⟩ := p
    rw [show parse_from_bytes s = .ok (v, t) by rw [parse_from_bytes, hres]; rfl]
    simp only []
    rw [pvbNFun]
    cases hres2 : pvbN n t with
    | ok p2 =>
      obtain ⟨vs, t2, ht2⟩ := p2
      simp [Except.map]
    | error e => simp [Except.map]
  | error e =>
    rw [show parse_from_bytes s = .error e by rw [parse_from_bytes, hres]; rfl]
    simp [Except.map]

theorem pvb_array_ok {rest cstr t : Str} {count : Int}
    (h1 : splitCRLF rest = some (cstr, t)) (h2 : parseI64 cstr = some count)
    (h3 : 0 ≤ count) {elems : List RValue} {t2 : Str}
    (h4 : pvbNFun count.toNat t = .ok (elems, t2)) :
    parse_from_bytes ('*' :: rest) = .ok (.array elems, t2) := by
  rw [parse_from_bytes, pvbCore, if_neg (by decide), if_neg (by decide),
    if_neg (by decide), if_neg (by decide), if_pos rfl]
  split
  · rename_i cstr2 t9 heq
    rw [h1] at heq
    injection heq with heq2
    injection heq2 with ha hb
    subst ha hb
    rw [h2]
    simp only []
    rw [if_neg (by omega : ¬ count < 0)]
    rw [pvbNFun] at h4
    cases hres : pvbN count.toNat t with
    | ok p =>
      obtain ⟨vs, t3, ht3⟩ := p
      rw [hres] at h4
      simp [Except.map] at h4
      simp [Except.map, h4]
    | error e =>
      rw [hres] at h4
      simp [Except.map] at h4
  · rename_i heq
    rw [h1] at heq
    cases heq

theorem pvb_array_null {rest cstr t : Str} {count : Int}
    (h1 : splitCRLF rest = some (cstr, t)) (h2 : parseI64 cstr = some count)
    (h3 : count < 0) :
    parse_from_bytes ('*' :: rest) = .ok (.null, t) := by
  rw [parse_from_bytes, pvbCore, if_neg (by decide), if_neg (by decide),
    if_neg (by decide), if_neg (by decide), if_pos rfl]
  split
  · rename_i cstr2 t9 heq
    rw [h1] at heq
    injection heq with heq2
    injection heq2 with ha hb
    subst ha hb
    rw [h2]
    simp only []
    rw [if_pos h3]
    simp [Except.map]
  · rename_i heq
    rw [h1] at heq
    cases heq

/-- ASCII text free of CR and LF (so every byte is the character and
CRLF-delimited framing cannot be corrupted). -/
def textPlain (s : Str) : Bool := s.all fun c => c.toNat < 128 && c ≠ crC && c ≠ lfC

/-- ASCII payload (bytes and characters coincide). -/
def asciiStr (s : Str) : Bool := s.all fun c => c.toNat < 128

mutual
/-- Canonical values of the byte-parser class: the RESP2 types
`parse_value_from_bytes` understands, with CR/LF-free ASCII text payloads,
ASCII bulk payloads, and lengths/integers within the i64 range. The `to_resp`
encodings of exactly these values are the canonical RESP2 wire forms. -/
def canonB : RValue → Bool
  | .simpleString s => textPlain s
  | .simpleError s => textPlain s
  | .integer i => decide (-(2 ^ 63) ≤ i) && decide (i ≤ 2 ^ 63 - 1)
  | .bulkString v => asciiStr v && decide (v.length ≤ 2 ^ 63 - 1)
  | .null => true
  | .array vs => canonBList vs && decide (vs.length ≤ 2 ^ 63 - 1)
  | .boolean _ => false
  | .double _ => false
  | .bigNumber _ => false
  | .bulkErrors _ => false
  | .verbatimString _ _ => false
  | .maps _ => false
  | .sets _ => false
  | .pushes _ => false

/-- `canonB` on every element. -/
def canonBList : List RValue → Bool
  | [] => true
  | v :: vs => canonB v && canonBList vs
end

theorem canonBList_mem {vs : List RValue} (h : canonBList vs = true) {v : RValue}
    (hm : v ∈ vs) : canonB v = true := by
  induction vs with
  | nil => cases hm
  | cons w ws ih =>
    rw [canonBList, Bool.and_eq_true] at h
    rcases List.mem_cons.mp hm with h1 | h2
    · subst h1; exact h.1
    · exact ih h.2 h2

theorem textPlain_no_cr {s : Str} (h : textPlain s = true) : crC ∉ s := by
  intro hm
  rw [textPlain, List.all_eq_true] at h
  have := h crC hm
  simp at this

theorem textPlain_noCRLF {s : Str} (h : textPlain s = true) : noCRLF s :=
  noCRLF_of_no_cr (textPlain_no_cr h)

theorem intRepr_no_cr {i : Int} : crC ∉ intRepr i := by
  unfold intRepr
  by_cases h : i < 0
  · rw [if_pos h]
    intro hm
    rcases List.mem_cons.mp hm with h1 | h2
    · exact absurd h1.symm (by decide)
    · exact natRepr_no_cr h2
  · rw [if_neg h]
    exact natRepr_no_cr

theorem intRepr_noCRLF (i : Int) : noCRLF (intRepr i) := noCRLF_of_no_cr intRepr_no_cr

theorem parseI64_natRepr {n : Nat} (h : n ≤ 2 ^ 63 - 1) :
    parseI64 (natRepr n) = some n := by
  have h2 : parseI64 (intRepr (n : Int)) = some (n : Int) :=
    parseI64_intRepr (by omega) (by omega)
  rw [intRepr, if_neg (by omega)] at h2
  simpa using h2

theorem sizeOf_mem_lt {v : RValue} {vs : List RValue} (h : v ∈ vs) :
    sizeOf v < sizeOf vs := by
  induction vs with
  | nil => cases h
  | cons w ws ih =>
    rcases List.mem_cons.mp h with h1 | h2
    · subst h1; simp; omega
    · have := ih h2; simp; omega

theorem pvbNFun_elements {vs : List RValue} {rest : Str}
    (hall : ∀ v ∈ vs, ∀ r, parse_from_bytes (to_resp v ++ r) = .ok (v, r)) :
    pvbNFun vs.length (toRespList vs ++ rest) = .ok (vs, rest) := by
  induction vs with
  | nil =>
    rw [toRespList]
    simp [pvbNFun_zero]
  | cons v ws ih =>
    rw [toRespList, List.length_cons, pvbNFun_succ, List.append_assoc]
    rw [hall v (List.mem_cons_self _ _) _]
    simp only []
    rw [ih fun w hw r => hall w (List.mem_cons_of_mem _ hw) r]

theorem pvb_roundtrip_aux :
    ∀ N (v : RValue), sizeOf v ≤ N → canonB v = true →
      ∀ rest, parse_from_bytes (to_resp v ++ rest) = .ok (v, rest) := by
  intro N
  induction N with
  | zero =>
    intro v hv
    exfalso
    have h1 : 0 < sizeOf v := by
      cases v <;> (simp; try omega)
    omega
  | succ N ih =>
    intro v hv hc rest
    match v with
    | .simpleString s =>
      rw [canonB] at hc
      rw [to_resp]
      simp only [crlfS, List.cons_append, List.append_assoc, List.nil_append]
      exact pvb_simpleString_ok (splitCRLF_append (textPlain_noCRLF hc))
    | .simpleError s =>
      rw [canonB] at hc
      rw [to_resp]
      simp only [crlfS, List.cons_append, List.append_assoc, List.nil_append]
      exact pvb_simpleError_ok (splitCRLF_append (textPlain_noCRLF hc))
    | .integer i =>
      rw [canonB, Bool.and_eq_true, decide_eq_true_eq, decide_eq_true_eq] at hc
      rw [to_resp]
      simp only [crlfS, List.cons_append, List.append_assoc, List.nil_append]
      exact pvb_integer_ok (splitCRLF_append (intRepr_noCRLF i))
        (parseI64_intRepr hc.1 hc.2)
    | .bulkString bv =>
      rw [canonB, Bool.and_eq_true, decide_eq_true_eq] at hc
      rw [to_resp]
      simp only [crlfS, List.cons_append, List.append_assoc, List.nil_append]
      have h4 : (bv ++ crC :: lfC :: rest).drop ((bv.length : Int)).toNat =
          crC :: lfC :: rest := by
        simp only [Int.toNat_ofNat]
        rw [show bv ++ crC :: lfC :: rest = bv ++ (crC :: lfC :: rest) from rfl]
        exact List.drop_left _ _
      have hlen : parseI64 (natRepr bv.length) = some ((bv.length : Nat) : Int) :=
        parseI64_natRepr hc.2
      have := pvb_bulk_ok (splitCRLF_append (natRepr_noCRLF bv.length))
        hlen (by omega) h4
      rw [this]
      simp only [Int.toNat_ofNat]
      rw [List.take_left]
    | .null =>
      rw [to_resp]
      have h1 : splitCRLF (('-' :: '1' :: crlfS) ++ rest) = some (['-', '1'], rest) := by
        simp only [crlfS, List.cons_append, List.nil_append]
        exact splitCRLF_append (l := ['-', '1']) (by decide)
      simp only [crlfS, List.cons_append, List.nil_append] at h1 ⊢
      exact pvb_bulk_null h1 (by decide : parseI64 ['-', '1'] = some (-1)) (by decide)
    | .array vs =>
      rw [canonB, Bool.and_eq_true, decide_eq_true_eq] at hc
      have hsz : sizeOf (RValue.array vs) = 1 + sizeOf vs := by simp
      have hmem : ∀ w ∈ vs, ∀ r, parse_from_bytes (to_resp w ++ r) = .ok (w, r) := by
        intro w hw r
        have h2 := sizeOf_mem_lt hw
        exact ih w (by omega) (canonBList_mem hc.1 hw) r
      rw [to_resp]
      simp only [crlfS, List.cons_append, List.append_assoc, List.nil_append]
      have h4 : pvbNFun ((vs.length : Int)).toNat (toRespList vs ++ rest) =
          .ok (vs, rest) := by
        simp only [Int.toNat_ofNat]
        exact pvbNFun_elements hmem
      exact pvb_array_ok (splitCRLF_append (natRepr_noCRLF vs.length))
        (parseI64_natRepr hc.2) (by omega) h4
    | .boolean b => rw [canonB] at hc; cases hc
    | .double d => rw [canonB] at hc; cases hc
    | .bigNumber s => rw [canonB] at hc; cases hc
    | .bulkErrors e => rw [canonB] at hc; cases hc
    | .verbatimString fm d => rw [canonB] at hc; cases hc
    | .maps m => rw [canonB] at hc; cases hc
    | .sets ss => rw [canonB] at hc; cases hc
    | .pushes ps => rw [canonB] at hc; cases hc

/-- Byte-parser round trip: the canonical encoding of a byte-class value
parses back to exactly that value, consuming the whole encoding. -/
theorem pvb_roundtrip {v : RValue} (hc : canonB v = true) (rest : Str) :
    parse_from_bytes (to_resp v ++ rest) = .ok (v, rest) :=
  pvb_roundtrip_aux (sizeOf v) v (le_refl _) hc rest

theorem takeDropWhile_boundary {p : Char → Bool} {l : Str}
    (h : ∀ c ∈ l, p c = true) {q : Char} (hq : p q = false) (t : Str) :
    (l ++ q :: t).takeWhile p = l ∧ (l ++ q :: t).dropWhile p = q :: t := by
  induction l with
  | nil => simp [List.takeWhile, List.dropWhile, hq]
  | cons c r ih =>
    have hc : p c = true := h c (List.mem_cons_self _ _)
    have ih2 := ih fun d hd => h d (List.mem_cons_of_mem _ hd)
    simp only [List.cons_append, List.takeWhile, List.dropWhile, hc, List.append_eq]
    exact ⟨by rw [ih2.1], ih2.2⟩

theorem stripTrailCR_concat (l : Str) : stripTrailCR (l ++ [crC]) = l := by
  rw [stripTrailCR]
  rw [List.getLast?_concat]
  simp

theorem linesFn_cons {l : Str} (h : lfC ∉ l) (rest : Str) :
    linesFn (l ++ crC :: lfC :: rest) = l :: linesFn rest := by
  rw [linesFn]
  rw [if_neg (by simp)]
  have hb := takeDropWhile_boundary (p := fun c => decide (c ≠ lfC))
    (l := l ++ [crC])
    (by
      intro c hc
      rcases List.mem_append.mp hc with h1 | h2
      · simp
        intro he
        subst he
        exact h h1
      · simp at h2
        subst h2
        decide)
    (q := lfC) (by simp) rest
  have harr : (l ++ [crC]) ++ lfC :: rest = l ++ crC :: lfC :: rest := by simp
  rw [harr] at hb
  split
  · rename_i heq
    rw [hb.2] at heq
    cases heq
  · rename_i c9 restS heq
    rw [hb.2] at heq
    injection heq with h1 h2
    subst h2
    rw [hb.1]
    simp only [stripTrailCR_concat]

theorem trimStr_of_noWs {s : Str} (h : ∀ c ∈ s, isWs c = false) : trimStr s = s := by
  rw [trimStr, trimStart, trimEnd]
  cases hs : s with
  | nil => simp
  | cons c r =>
    have h1 : List.dropWhile isWs (c :: r) = c :: r := by
      rw [List.dropWhile]
      rw [h c (by rw [hs]; exact List.mem_cons_self _ _)]
    rw [h1]
    cases hrev : (c :: r).reverse with
    | nil => simp at hrev
    | cons d q =>
      have hd : d ∈ s := by
        rw [hs, ← List.mem_reverse, hrev]
        exact List.mem_cons_self _ _
      rw [List.dropWhile]
      rw [h d hd, ← hrev]
      simp

theorem natRepr_noWs {n : Nat} : ∀ c ∈ natRepr n, isWs c = false := by
  intro c hc
  have := natRepr_digits hc
  simp [isWs]
  omega

theorem trimStr_natRepr (n : Nat) : trimStr (natRepr n) = natRepr n :=
  trimStr_of_noWs natRepr_noWs

/-- The sigils the line parser dispatches on. -/
def lineSigils : List Char :=
  ['+', '-', ':', '$', '*', '#', ',', '(', '!', '=', '%', '~', '>']

theorem parse_value_nil : (parse_value []).1 = .null := by
  rw [parse_value.eq_1]

theorem parse_value_wildcard {header : Str} (h : header.headD '_' ∉ lineSigils)
    (rest : List Str) : (parse_value (header :: rest)).1 = .null := by
  simp only [lineSigils, List.mem_cons, List.mem_singleton, not_or] at h
  obtain ⟨h1, h2, h3, h4, h5, h6, h7, h8, h9, h10, h11, h12, h13, _⟩ := h
  rw [parse_value]
  simp only [List.headD_eq_head?] at h1 h2 h3 h4 h5 h6 h7 h8 h9 h10 h11 h12 h13
  simp [h1, h2, h3, h4, h5, h6, h7, h8, h9, h10, h11, h12, h13]

theorem parse_value_boolean (b : Bool) (rest : List Str) :
    (parse_value (('#' :: [if b then 't' else 'f']) :: rest)).1 = .boolean b := by
  cases b <;>
    (rw [parse_value]
     simp [trimStartMatches, trimStr, trimStart, trimEnd, isWs, eqIgnoreCaseT,
       List.headD])

theorem trimStartMatches_noop {c : Char} {s : Str} (h : s.headD c ≠ c) :
    trimStartMatches c s = s := by
  cases s with
  | nil => rfl
  | cons x r =>
    rw [trimStartMatches]
    rw [if_neg (by simpa using h)]

theorem trimStartMatches_natRepr {c : Char} (hc : c.toNat < 48 ∨ 57 < c.toNat)
    (n : Nat) : trimStartMatches c (natRepr n) = natRepr n := by
  obtain ⟨d, r, hdr, h48, h57⟩ := natRepr_head_digit n
  apply trimStartMatches_noop
  rw [hdr]
  simp only [List.headD]
  intro he
  subst he
  omega

theorem parse_value_bigNumber {s : Str} (htm : trimStartMatches '(' s = s)
    (htr : trimStr s = s) (rest : List Str) :
    (parse_value (('(' :: s) :: rest)).1 = .bigNumber s := by
  rw [parse_value]
  simp [trimStartMatches, htm, htr]

theorem parse_value_bulkErrors {e : Str} (hlen : e.length ≤ 2 ^ 63 - 1)
    (rest : List Str) :
    (parse_value (('!' :: natRepr e.length) :: e :: rest)).1 = .bulkErrors e := by
  have hx : trimStr (trimStartMatches '!' ('!' :: natRepr e.length)) =
      natRepr e.length := by
    rw [trimStartMatches, if_pos rfl,
      trimStartMatches_natRepr (by decide : ('!').toNat < 48 ∨ 57 < ('!').toNat),
      trimStr_natRepr]
  rw [parse_value]
  simp only [List.headD_eq_head?, List.head?, Option.getD]
  rw [if_neg (show ¬ ('!' : Char) = '+' by decide),
    if_neg (show ¬ ('!' : Char) = '-' by decide),
    if_neg (show ¬ ('!' : Char) = ':' by decide),
    if_neg (show ¬ ('!' : Char) = '$' by decide),
    if_neg (show ¬ ('!' : Char) = '*' by decide),
    if_neg (show ¬ ('!' : Char) = '#' by decide),
    if_neg (show ¬ ('!' : Char) = ',' by decide),
    if_neg (show ¬ ('!' : Char) = '(' by decide)]
  rw [if_pos trivial]
  split
  · rename_i len heq
    rw [hx, parseI64_natRepr hlen] at heq
    injection heq with hlen2
    rw [if_neg (by omega : ¬ len < 0)]
    rw [if_neg (show ¬ (e :: rest) = [] by simp)]
  · rename_i heq
    rw [hx, parseI64_natRepr hlen] at heq
    cases heq

theorem textPlain_no_lf {s : Str} (h : textPlain s = true) : lfC ∉ s := by
  intro hm
  rw [textPlain, List.all_eq_true] at h
  have := h lfC hm
  simp at this

theorem valkeyFrom_byteClass {v : RValue} (hc : canonB v = true) :
    valkeyFrom (to_resp v) = v := by
  rw [valkeyFrom]
  have h := pvb_roundtrip hc []
  rw [List.append_nil] at h
  rw [h]

theorem valkeyFrom_fallback {s : Str} {e : String} (h : parse_from_bytes s = .error e) :
    valkeyFrom s = (parse_value (linesFn s)).1 := by
  rw [valkeyFrom, h]

theorem valkeyFrom_boolean (b : Bool) : valkeyFrom (to_resp (.boolean b)) = .boolean b := by
  have henc : to_resp (RValue.boolean b) =
      ('#' :: [if b then 't' else 'f']) ++ crC :: lfC :: [] := by
    rw [to_resp]
    simp [crlfS]
  have hf : parse_from_bytes (('#' :: [if b then 't' else 'f']) ++ crC :: lfC :: []) =
      .error "Unknown RESP type" := by
    simp only [List.cons_append]
    exact pvb_unknown (by decide) _
  rw [henc]
  simp only [List.cons_append, List.nil_append] at hf ⊢
  rw [valkeyFrom_fallback hf]
  have hl := linesFn_cons (l := '#' :: [if b then 't' else 'f'])
    (by cases b <;> simp <;> decide) []
  simp only [List.cons_append, List.nil_append] at hl
  rw [hl]
  rw [show linesFn [] = [] by rw [linesFn]; simp]
  exact parse_value_boolean b []

theorem valkeyFrom_bigNumber {s : Str} (hp : textPlain s = true)
    (htm : trimStartMatches '(' s = s) (htr : trimStr s = s) :
    valkeyFrom (to_resp (.bigNumber s)) = .bigNumber s := by
  have henc : to_resp (RValue.bigNumber s) = ('(' :: s) ++ crC :: lfC :: [] := by
    rw [to_resp]
    simp [crlfS]
  have hf : parse_from_bytes (('(' :: s) ++ crC :: lfC :: []) =
      .error "Unknown RESP type" := by
    simp only [List.cons_append]
    exact pvb_unknown (by decide) _
  rw [henc]
  simp only [List.cons_append, List.nil_append] at hf ⊢
  rw [valkeyFrom_fallback hf]
  have hl := linesFn_cons (l := '(' :: s)
    (by
      intro hm
      rcases List.mem_cons.mp hm with h1 | h2
      · exact absurd h1.symm (by decide)
      · exact textPlain_no_lf hp h2) []
  simp only [List.cons_append, List.nil_append] at hl
  rw [hl]
  rw [show linesFn [] = [] by rw [linesFn]; simp]
  exact parse_value_bigNumber htm htr []

theorem valkeyFrom_bulkErrors {e : Str} (hp : textPlain e = true)
    (hlen : e.length ≤ 2 ^ 63 - 1) :
    valkeyFrom (to_resp (.bulkErrors e)) = .bulkErrors e := by
  have henc : to_resp (RValue.bulkErrors e) =
      ('!' :: natRepr e.length) ++ crC :: lfC :: (e ++ crC :: lfC :: []) := by
    rw [to_resp]
    simp [crlfS]
  have hf : parse_from_bytes (('!' :: natRepr e.length) ++
      crC :: lfC :: (e ++ crC :: lfC :: [])) = .error "Unknown RESP type" := by
    simp only [List.cons_append]
    exact pvb_unknown (by decide) _
  rw [henc]
  simp only [List.cons_append, List.nil_append] at hf ⊢
  rw [valkeyFrom_fallback hf]
  have hl := linesFn_cons (l := '!' :: natRepr e.length)
    (by
      intro hm
      rcases List.mem_cons.mp hm with h1 | h2
      · exact absurd h1.symm (by decide)
      · exact natRepr_no_lf h2) (e ++ crC :: lfC :: [])
  simp only [List.cons_append, List.nil_append] at hl
  rw [hl]
  have hl2 := linesFn_cons (l := e) (textPlain_no_lf hp) []
  simp only [List.nil_append] at hl2
  rw [hl2]
  rw [show linesFn [] = [] by rw [linesFn]; simp]
  exact parse_value_bulkErrors hlen []

/-- The canonical top-level class for the amended re-encode claim: the
byte-parser class plus the fallback scalars `Boolean`, `BigNumber` (plain
text, not starting with `(`, no edge whitespace), `BulkErrors` (plain ASCII
payload of i64-representable length). -/
def canonTop (v : RValue) : Bool :=
  canonB v ||
    (match v with
      | .boolean _ => true
      | .bigNumber s =>
        textPlain s && (trimStartMatches '(' s == s) && (trimStr s == s)
      | .bulkErrors e => textPlain e && decide (e.length ≤ 2 ^ 63 - 1)
      | .simpleString _ => false
      | .simpleError _ => false
      | .integer _ => false
      | .bulkString _ => false
      | .array _ => false
      | .null => false
      | .double _ => false
      | .verbatimString _ _ => false
      | .maps _ => false
      | .sets _ => false
      | .pushes _ => false)

theorem valkeyFrom_canonTop {v : RValue} (hc : canonTop v = true) :
    valkeyFrom (to_resp v) = v := by
  rw [canonTop.eq_def, Bool.or_eq_true] at hc
  rcases hc with hb | hf
  · exact valkeyFrom_byteClass hb
  · cases v with
    | boolean b => exact valkeyFrom_boolean b
    | bigNumber s =>
      simp only [Bool.and_eq_true, beq_iff_eq] at hf
      exact valkeyFrom_bigNumber hf.1.1 hf.1.2 hf.2
    | bulkErrors e =>
      simp only [Bool.and_eq_true, decide_eq_true_eq] at hf
      exact valkeyFrom_bulkErrors hf.1 hf.2
    | simpleString s => simp at hf
    | simpleError s => simp at hf
    | integer i => simp at hf
    | bulkString bv => simp at hf
    | array vs => simp at hf
    | null => simp at hf
    | double d => simp at hf
    | verbatimString fm d => simp at hf
    | maps m => simp at hf
    | sets ss => simp at hf
    | pushes ps => simp at hf

/-- Concatenation of CRLF-terminated frames, one per line. -/
def encodeLines : List Str → Str
  | [] => []
  | l :: r => l ++ crC :: lfC :: encodeLines r

theorem count_nil : count_complete_resp_messages [] = 0 := by
  rw [count_complete_resp_messages]
  simp [find_next_complete_message, splitCRLF]

theorem count_step {l rest : Str} (h : noCRLF l) :
    count_complete_resp_messages (l ++ crC :: lfC :: rest) =
      count_complete_resp_messages rest + 1 := by
  rw [count_complete_resp_messages]
  split
  · rename_i r9 heq
    rw [find_next_complete_message, splitCRLF_append h] at heq
    simp at heq
    rw [heq]
  · rename_i heq
    rw [find_next_complete_message, splitCRLF_append h] at heq
    cases heq

theorem count_encodeLines {ls : List Str} (h : ∀ l ∈ ls, noCRLF l) :
    count_complete_resp_messages (encodeLines ls) = ls.length := by
  induction ls with
  | nil => rw [encodeLines]; exact count_nil
  | cons l r ih =>
    rw [encodeLines, count_step (h l (List.mem_cons_self _ _)),
      ih fun x hx => h x (List.mem_cons_of_mem _ hx)]
    simp

theorem splitCRLF_first {l a b : Str} (h : splitCRLF l = some (a, b)) : noCRLF a := by
  induction l generalizing a b with
  | nil => simp [splitCRLF] at h
  | cons c1 t ih =>
    match t with
    | [] => simp [splitCRLF] at h
    | c2 :: rest =>
      rw [splitCRLF] at h
      by_cases hc : c1 = crC ∧ c2 = lfC
      · rw [if_pos hc] at h
        cases h
        simp [noCRLF, splitCRLF]
      · rw [if_neg hc] at h
        cases heq : splitCRLF (c2 :: rest) with
        | none => rw [heq] at h; cases h
        | some p =>
          obtain ⟨a0, b0⟩ := p
          rw [heq] at h
          cases h
          have ha0 := ih heq
          have hshape := splitCRLF_some_eq heq
          unfold noCRLF at ha0 ⊢
          cases a0 with
          | nil => simp [splitCRLF]
          | cons d a1 =>
            have hd : c2 = d := by
              simp at hshape
              exact hshape.1
            rw [splitCRLF]
            rw [if_neg (by rw [← hd]; exact hc)]
            rw [ha0]

theorem noCRLF_of_pre {s p q : Str} (hs : noCRLF s) (hpq : s = p ++ q) : noCRLF p := by
  unfold noCRLF at hs ⊢
  cases heq : splitCRLF p with
  | none => rfl
  | some pr =>
    exfalso
    obtain ⟨a, b⟩ := pr
    have he := splitCRLF_some_eq heq
    have ha := splitCRLF_first heq
    have : s = a ++ crC :: lfC :: (b ++ q) := by
      rw [hpq, he]
      simp
    rw [this, splitCRLF_append ha] at hs
    cases hs

theorem noCRLF_concat_cr {l : Str} (h : noCRLF l) : noCRLF (l ++ [crC]) := by
  unfold noCRLF at h ⊢
  cases heq : splitCRLF (l ++ [crC]) with
  | none => rfl
  | some pr =>
    exfalso
    obtain ⟨a, b⟩ := pr
    have he := splitCRLF_some_eq heq
    have ha := splitCRLF_first heq
    rcases List.eq_nil_or_concat b with hb | ⟨b0, c0, hb⟩
    · subst hb
      have h1 : (l ++ [crC]).getLast? = some crC := List.getLast?_concat _
      rw [he] at h1
      rw [show a ++ crC :: lfC :: [] = (a ++ [crC]) ++ [lfC] by simp] at h1
      rw [List.getLast?_concat] at h1
      injection h1 with h1
      exact absurd h1 (by decide)
    · subst hb
      have he2 : l ++ [crC] = (a ++ crC :: lfC :: b0) ++ [c0] := by
        rw [he]; simp [List.concat_eq_append]
      have h3 : l = a ++ crC :: lfC :: b0 := by
        have h4 := congrArg List.dropLast he2
        rw [List.dropLast_concat, List.dropLast_concat] at h4
        exact h4
      rw [h3, splitCRLF_append ha] at h
      cases h

theorem count_zero_of_noCRLF {p : Str} (h : noCRLF p) :
    count_complete_resp_messages p = 0 := by
  rw [count_complete_resp_messages]
  split
  · rename_i r heq
    rw [find_next_complete_message] at heq
    unfold noCRLF at h
    rw [h] at heq
    cases heq
  · rfl

theorem count_strict_prefix {ls : List Str} (h : ∀ l ∈ ls, noCRLF l) {p t : Str}
    (hpt : p ++ t = encodeLines ls) (ht : t ≠ []) :
    count_complete_resp_messages p + 1 ≤ ls.length := by
  induction ls generalizing p t with
  | nil =>
    rw [encodeLines] at hpt
    exact absurd (List.append_eq_nil.mp hpt).2 ht
  | cons l r ih =>
    rw [encodeLines] at hpt
    by_cases hlen : p.length ≤ l.length + 1
    · have hpre : ∃ q, (l ++ [crC]) = p ++ q := by
        have h2 : p ++ t = (l ++ [crC]) ++ (lfC :: encodeLines r) := by
          rw [hpt]; simp
        rcases List.append_eq_append_iff.mp h2 with ⟨a2, ha2, _⟩ | ⟨c2, hc2, _⟩
        · exact ⟨a2, ha2⟩
        · have hl2 := congrArg List.length hc2
          simp at hl2
          have hc20 : c2 = [] := List.eq_nil_of_length_eq_zero (by omega)
          rw [hc20, List.append_nil] at hc2
          exact ⟨[], by rw [hc2, List.append_nil]⟩
      obtain ⟨q, hq⟩ := hpre
      have hnp : noCRLF p :=
        noCRLF_of_pre (noCRLF_concat_cr (h l (List.mem_cons_self _ _))) hq
      rw [count_zero_of_noCRLF hnp]
      simp
    · have h2 : (l ++ [crC, lfC]) ++ encodeLines r = p ++ t := by
        rw [hpt]; simp
      have hstep : ∃ p2, p = (l ++ [crC, lfC]) ++ p2 ∧ p2 ++ t = encodeLines r := by
        rcases List.append_eq_append_iff.mp h2 with ⟨a2, ha2, hb2⟩ | ⟨c2, hc2, hd2⟩
        · exact ⟨a2, ha2, hb2.symm⟩
        · have hl2 := congrArg List.length hc2
          simp at hl2
          have hc20 : c2 = [] := List.eq_nil_of_length_eq_zero (by omega)
          rw [hc20, List.append_nil] at hc2
          rw [hc20, List.nil_append] at hd2
          exact ⟨[], by rw [← hc2, List.append_nil], by rw [List.nil_append, hd2]⟩
      obtain ⟨p2, hp2, hrec⟩ := hstep
      have hcount : count_complete_resp_messages p =
          count_complete_resp_messages p2 + 1 := by
        rw [hp2]
        rw [show (l ++ [crC, lfC]) ++ p2 = l ++ crC :: lfC :: p2 by simp]
        exact count_step (h l (List.mem_cons_self _ _))
      rw [hcount]
      have hih := ih (fun x hx => h x (List.mem_cons_of_mem _ hx)) hrec ht
      simp only [List.length_cons]
      omega

mutual
/-- The amended structural-equality specification: structural on every
variant, with IEEE semantics on `Double` bit patterns and any two `Maps`
equal (mirroring the spec's wording as corrected by the `Maps` arm of the
source). -/
def structEqA : RValue → RValue → Prop
  | .simpleString a, .simpleString b => a = b
  | .simpleError a, .simpleError b => a = b
  | .integer a, .integer b => a = b
  | .bulkString a, .bulkString b => a = b
  | .array a, .array b => structEqAList a b
  | .null, .null => True
  | .boolean a, .boolean b => a = b
  | .double a, .double b => f64Eq a b = true
  | .bigNumber a, .bigNumber b => a = b
  | .bulkErrors a, .bulkErrors b => a = b
  | .verbatimString fa da, .verbatimString fb db => fa = fb ∧ da = db
  | .maps _, .maps _ => True
  | .sets a, .sets b => structEqAList a b
  | .pushes a, .pushes b => structEqAList a b
  | _, _ => False

/-- Pointwise structural equality of element lists (same length). -/
def structEqAList : List RValue → List RValue → Prop
  | [], [] => True
  | a :: as1, b :: bs1 => structEqA a b ∧ structEqAList as1 bs1
  | _, _ => False
end

theorem veqList_iff_forall {as1 : List RValue}
    (hih : ∀ x ∈ as1, ∀ y, veq x y = true ↔ structEqA x y) :
    ∀ bs, veqList as1 bs = true ↔ structEqAList as1 bs := by
  induction as1 with
  | nil =>
    intro bs
    cases bs <;> simp [veqList, structEqAList]
  | cons a as2 ih =>
    intro bs
    cases bs with
    | nil => simp [veqList, structEqAList]
    | cons b bs2 =>
      rw [veqList, Bool.and_eq_true, structEqAList]
      rw [hih a (List.mem_cons_self _ _) b,
        ih (fun x hx y => hih x (List.mem_cons_of_mem _ hx) y) bs2]

theorem veq_iff_structEqA_aux :
    ∀ N a, sizeOf a ≤ N → ∀ b, (veq a b = true ↔ structEqA a b) := by
  intro N
  induction N with
  | zero =>
    intro a ha
    exfalso
    have h1 : 0 < sizeOf a := by
      cases a <;> (simp; try omega)
    omega
  | succ N ih =>
    intro a ha b
    have hlist : ∀ (vs : List RValue), sizeOf a = 1 + sizeOf vs →
        ∀ bs, veqList vs bs = true ↔ structEqAList vs bs := by
      intro vs hsz bs
      refine veqList_iff_forall (fun x hx y => ?_) bs
      have := sizeOf_mem_lt hx
      exact ih x (by omega) y
    cases a <;> cases b <;>
      simp only [veq, structEqA, Bool.and_eq_true, decide_eq_true_eq,
        beq_iff_eq, reduceCtorEq] <;>
      first
        | rfl
        | simp
        | (apply hlist; simp)

mutual
/-- No `Double` payload anywhere in the value carries the negative-zero bit
pattern `0x8000000000000000` (the one pattern on which IEEE equality and
bit-pattern hashing disagree with each other). -/
def noNegZero : RValue → Bool
  | .simpleString _ => true
  | .simpleError _ => true
  | .integer _ => true
  | .bulkString _ => true
  | .array vs => noNegZeroList vs
  | .null => true
  | .boolean _ => true
  | .double bits => bits ≠ 2 ^ 63
  | .bigNumber _ => true
  | .bulkErrors _ => true
  | .verbatimString _ _ => true
  | .maps _ => true
  | .sets vs => noNegZeroList vs
  | .pushes vs => noNegZeroList vs

def noNegZeroList : List RValue → Bool
  | [] => true
  | v :: vs => noNegZero v && noNegZeroList vs
end

theorem noNegZeroList_mem {vs : List RValue} (h : noNegZeroList vs = true)
    {v : RValue} (hm : v ∈ vs) : noNegZero v = true := by
  induction vs with
  | nil => cases hm
  | cons w ws ih =>
    rw [noNegZeroList, Bool.and_eq_true] at h
    rcases List.mem_cons.mp hm with h1 | h2
    · subst h1; exact h.1
    · exact ih h.2 h2

theorem hashStreamList_congr :
    ∀ {as1 bs : List RValue},
      (∀ x ∈ as1, ∀ y ∈ bs, veq x y = true → hashStream x = hashStream y) →
      veqList as1 bs = true →
      as1.length = bs.length ∧ hashStreamList as1 = hashStreamList bs := by
  intro as1
  induction as1 with
  | nil =>
    intro bs hih hv
    cases bs with
    | nil => exact ⟨rfl, rfl⟩
    | cons b bs2 => rw [veqList] at hv; cases hv
  | cons a as2 ih =>
    intro bs hih hv
    cases bs with
    | nil => rw [veqList] at hv; cases hv
    | cons b bs2 =>
      rw [veqList, Bool.and_eq_true] at hv
      have h1 := hih a (List.mem_cons_self _ _) b (List.mem_cons_self _ _) hv.1
      have h2 := ih
        (fun x hx y hy => hih x (List.mem_cons_of_mem _ hx) y (List.mem_cons_of_mem _ hy))
        hv.2
      refine ⟨by simp [h2.1], ?_⟩
      rw [hashStreamList, hashStreamList, h1, h2.2]

theorem hash_eq_of_veq_aux :
    ∀ N a, sizeOf a ≤ N → noNegZero a = true → ∀ b, noNegZero b = true →
      veq a b = true → hashStream a = hashStream b := by
  intro N
  induction N with
  | zero =>
    intro a ha
    exfalso
    have h1 : 0 < sizeOf a := by
      cases a <;> (simp; try omega)
    omega
  | succ N ih =>
    intro a ha hna b hnb hv
    have hlist : ∀ (vs : List RValue), sizeOf vs < sizeOf a →
        noNegZeroList vs = true → ∀ bs, noNegZeroList bs = true →
        veqList vs bs = true →
        vs.length = bs.length ∧ hashStreamList vs = hashStreamList bs := by
      intro vs hsz hnv bs hnbs hvl
      refine hashStreamList_congr (fun x hx y hy hxy => ?_) hvl
      have := sizeOf_mem_lt hx
      exact ih x (by omega) (noNegZeroList_mem hnv hx) y (noNegZeroList_mem hnbs hy) hxy
    cases a <;> cases b <;>
      first
        | (simp only [veq, reduceCtorEq] at hv; done)
        | skip
    case simpleString.simpleString s1 s2 =>
      rw [veq, decide_eq_true_eq] at hv
      rw [hv]
    case simpleError.simpleError s1 s2 =>
      rw [veq, decide_eq_true_eq] at hv
      rw [hv]
    case integer.integer i1 i2 =>
      rw [veq, decide_eq_true_eq] at hv
      rw [hv]
    case bulkString.bulkString v1 v2 =>
      rw [veq, decide_eq_true_eq] at hv
      rw [hv]
    case array.array vs bs =>
      rw [veq] at hv
      rw [noNegZero] at hna hnb
      have := hlist vs (by simp) hna bs hnb hv
      rw [hashStream, hashStream, this.1, this.2]
    case null.null => rfl
    case boolean.boolean b1 b2 =>
      rw [veq, decide_eq_true_eq] at hv
      rw [hv]
    case double.double d1 d2 =>
      rw [veq] at hv
      rw [noNegZero] at hna hnb
      simp only [ne_eq, decide_eq_true_eq] at hna hnb
      rw [f64Eq, Bool.or_eq_true, Bool.and_eq_true, Bool.and_eq_true] at hv
      have hd : d1 = d2 := by
        rcases hv with ⟨hz1, hz2⟩ | ⟨heq, _⟩
        · rw [f64IsZero, Bool.or_eq_true, decide_eq_true_eq, decide_eq_true_eq] at hz1 hz2
          rcases hz1 with h1 | h1 <;> rcases hz2 with h2 | h2 <;> omega
        · simpa using heq
      rw [hd]
    case bigNumber.bigNumber s1 s2 =>
      rw [veq, decide_eq_true_eq] at hv
      rw [hv]
    case bulkErrors.bulkErrors e1 e2 =>
      rw [veq, decide_eq_true_eq] at hv
      rw [hv]
    case verbatimString.verbatimString f1 d1 f2 d2 =>
      rw [veq, Bool.and_eq_true, decide_eq_true_eq, decide_eq_true_eq] at hv
      rw [hv.1, hv.2]
    case maps.maps m1 m2 => rfl
    case sets.sets vs bs =>
      rw [veq] at hv
      rw [noNegZero] at hna hnb
      have := hlist vs (by simp) hna bs hnb hv
      rw [hashStream, hashStream, this.1, this.2]
    case pushes.pushes vs bs =>
      rw [veq] at hv
      rw [noNegZero] at hna hnb
      have := hlist vs (by simp) hna bs hnb hv
      rw [hashStream, hashStream, this.1, this.2]

theorem scLoop_no_empty {s : Str} (h : ∀ c ∈ s, c ≠ dqC ∧ c ≠ sqC) :
    ∀ cur, [] ∉ scLoop s cur false := by
  induction s with
  | nil =>
    intro cur
    rw [scLoop]
    by_cases hc : cur = []
    · simp [hc]
    · rw [if_neg hc]
      simp
      exact fun hx => hc hx
  | cons c rest ih =>
    intro cur
    have hc := h c (List.mem_cons_self _ _)
    have htail : ∀ x ∈ rest, x ≠ dqC ∧ x ≠ sqC :=
      fun x hx => h x (List.mem_cons_of_mem _ hx)
    rw [scLoop]
    rw [if_neg (by simp : ¬ (c = bsC ∧ false = true))]
    rw [if_neg (by simp [hc.1, hc.2] : ¬ (c = dqC ∨ c = sqC))]
    by_cases hsp : c = spC
    · rw [if_pos ⟨hsp, rfl⟩]
      by_cases hcur : cur = []
      · rw [if_pos hcur]
        exact ih htail []
      · rw [if_neg hcur]
        intro hmem
        rcases List.mem_cons.mp hmem with h1 | h2
        · exact hcur h1.symm
        · exact ih htail [] h2
    · rw [if_neg (by simp [hsp] : ¬ (c = spC ∧ false = false))]
      exact ih htail (cur ++ [c])

theorem scLoop_plain_inQ {a : Str} (ha : ∀ c ∈ a, c ≠ dqC ∧ c ≠ sqC ∧ c ≠ bsC) :
    ∀ rest cur, scLoop (a ++ rest) cur true = scLoop rest (cur ++ a) true := by
  induction a with
  | nil => intro rest cur; simp
  | cons c a2 ih =>
    intro rest cur
    have hc := ha c (List.mem_cons_self _ _)
    have htail : ∀ x ∈ a2, x ≠ dqC ∧ x ≠ sqC ∧ x ≠ bsC :=
      fun x hx => ha x (List.mem_cons_of_mem _ hx)
    rw [List.cons_append, scLoop]
    rw [if_neg (by simp [hc.2.2] : ¬ (c = bsC ∧ true = true))]
    rw [if_neg (by simp [hc.1, hc.2.1] : ¬ (c = dqC ∨ c = sqC))]
    rw [if_neg (by simp : ¬ (c = spC ∧ true = false))]
    rw [ih htail rest (cur ++ [c])]
    simp

theorem scLoop_plain_outQ {b : Str} (hb : ∀ c ∈ b, c ≠ dqC ∧ c ≠ sqC ∧ c ≠ spC) :
    ∀ rest cur, scLoop (b ++ rest) cur false = scLoop rest (cur ++ b) false := by
  induction b with
  | nil => intro rest cur; simp
  | cons c b2 ih =>
    intro rest cur
    have hc := hb c (List.mem_cons_self _ _)
    have htail : ∀ x ∈ b2, x ≠ dqC ∧ x ≠ sqC ∧ x ≠ spC :=
      fun x hx => hb x (List.mem_cons_of_mem _ hx)
    rw [List.cons_append, scLoop]
    rw [if_neg (by simp : ¬ (c = bsC ∧ false = true))]
    rw [if_neg (by simp [hc.1, hc.2.1] : ¬ (c = dqC ∨ c = sqC))]
    rw [if_neg (by simp [hc.2.2] : ¬ (c = spC ∧ false = false))]
    rw [ih htail rest (cur ++ [c])]
    simp

theorem split_commands_interchange {a b : Str}
    (ha : ∀ c ∈ a, c ≠ dqC ∧ c ≠ sqC ∧ c ≠ bsC)
    (hb : ∀ c ∈ b, c ≠ dqC ∧ c ≠ sqC ∧ c ≠ spC) (hbne : b ≠ []) :
    split_commands (dqC :: (a ++ sqC :: (b ++ [dqC]))) = [a, b] := by
  rw [split_commands, scLoop]
  rw [if_neg (by simp : ¬ (dqC = bsC ∧ false = true))]
  rw [if_pos (Or.inl rfl)]
  rw [show (if false = true then
      ([] : Str) :: scLoop (a ++ sqC :: (b ++ [dqC])) [] false
    else scLoop (a ++ sqC :: (b ++ [dqC])) [] true) =
      scLoop (a ++ sqC :: (b ++ [dqC])) [] true by rw [if_neg (by simp)]]
  rw [scLoop_plain_inQ ha]
  rw [scLoop]
  rw [if_neg (by decide : ¬ (sqC = bsC ∧ true = true))]
  rw [if_pos (Or.inr rfl)]
  rw [if_pos rfl]
  simp only [List.nil_append]
  rw [scLoop_plain_outQ hb]
  simp only [List.nil_append]
  rw [scLoop]
  rw [if_neg (by simp : ¬ (dqC = bsC ∧ false = true))]
  rw [if_pos (Or.inl rfl)]
  rw [if_neg (by simp)]
  rw [scLoop]
  rw [if_neg hbne]

theorem splitFirst_append {c : Char} {l r : Str} (h : c ∉ l) :
    splitFirst c (l ++ c :: r) = some (l, r) := by
  induction l with
  | nil => simp [splitFirst]
  | cons x l2 ih =>
    have hx : ¬ x = c := fun he => h (by rw [he]; exact List.mem_cons_self _ _)
    rw [List.cons_append, splitFirst, if_neg hx,
      ih fun hm => h (List.mem_cons_of_mem _ hm)]
    rfl

/-- `valkey` as a character list. -/
def valkeyS : Str := ['v', 'a', 'l', 'k', 'e', 'y']

/-- `redis` as a character list. -/
def redisS : Str := ['r', 'e', 'd', 'i', 's']

/-- C6: after a HELLO reply carrying `server` and `version` entries whose
version string's first three dotted components parse as the unsigned bytes
`(a, b, c)` (missing minor/patch defaulting to 0), the handshake fails with
`UnsupportedValkeyServerError` if and only if either `(a, b, c)` is
lexicographically below `MIN_VALKEY_VERSION = (8, 0, 0)` or the server string
is neither `valkey` nor `redis`; for server `valkey` with version at least
`(8, 0, 0)` the session is accepted. -/
theorem helloGate_characterization {server version : Str} {a b c : Nat}
    (hv : versionTriple version = some (a, b, c)) :
    (helloGate server version = .unsupportedError ↔
      ((a < 8 ∨ (a = 8 ∧ (b < 0 ∨ (b = 0 ∧ c < 0)))) ∨
        (server ≠ valkeyS ∧ server ≠ redisS))) ∧
    (server = valkeyS → ¬ (a < 8 ∨ (a = 8 ∧ (b < 0 ∨ (b = 0 ∧ c < 0)))) →
      helloGate server version = .accepted) := by
  rw [helloGate, hv]
  simp only []
  have hlt : tripleLt (a, b, c) MIN_VALKEY_VERSION = true ↔
      (a < 8 ∨ (a = 8 ∧ (b < 0 ∨ (b = 0 ∧ c < 0)))) := by
    simp [tripleLt, MIN_VALKEY_VERSION]
  have hsup : server ∈ SUPPORTED_SERVERS ↔ server = valkeyS := by
    simp [SUPPORTED_SERVERS, valkeyS]
  have hpart : server ∈ PARTIALLY_SUPPORTED_SERVERS ↔ server = redisS := by
    simp [PARTIALLY_SUPPORTED_SERVERS, redisS]
  by_cases h1 : tripleLt (a, b, c) MIN_VALKEY_VERSION = true
  · rw [if_pos h1]
    constructor
    · constructor
      · intro _; exact Or.inl (hlt.mp h1)
      · intro _; rfl
    · intro _ hno
      exact absurd (hlt.mp h1) hno
  · rw [if_neg h1]
    have hlt2 : ¬ (a < 8 ∨ (a = 8 ∧ (b < 0 ∨ (b = 0 ∧ c < 0)))) := fun hx =>
      h1 (hlt.mpr hx)
    by_cases h2 : server ∈ SUPPORTED_SERVERS
    · rw [if_neg (by simpa using h2)]
      constructor
      · constructor
        · intro he; cases he
        · intro hx
          rcases hx with hx | hx
          · exact absurd hx hlt2
          · exact absurd (hsup.mp h2) hx.1
      · intro _ _; rfl
    · rw [if_pos (by simpa using h2)]
      by_cases h3 : server ∈ PARTIALLY_SUPPORTED_SERVERS
      · rw [if_neg (by simpa using h3)]
        constructor
        · constructor
          · intro he; cases he
          · intro hx
            rcases hx with hx | hx
            · exact absurd hx hlt2
            · exact absurd (hpart.mp h3) hx.2
        · intro hs _
          exact absurd (hsup.mpr hs) h2
      · rw [if_pos (by simpa using h3)]
        constructor
        · constructor
          · intro _
            refine Or.inr ⟨fun hx => h2 (hsup.mpr hx), fun hx => h3 (hpart.mpr hx)⟩
          · intro _; rfl
        · intro hs _
          exact absurd (hsup.mpr hs) h2

theorem take_prefix_valkey (x : Str) :
    (valkeyUrlPrefix ++ x).take 9 = valkeyUrlPrefix := by
  rw [show (9 : Nat) = valkeyUrlPrefix.length from rfl]
  exact List.take_left _ _

theorem processMeta_last {ps : List Str} {s : Str} :
    processMeta (ps ++ [['l', 'a', 's', 't', ':'] ++ s]) =
      ((processMeta ps).1,
        some (match parseU64 s with
          | some ts => formatTimestamp ts
          | none => s)) := by
  rw [processMeta, processMeta, List.foldl_append]
  rw [List.foldl_cons, List.foldl_nil]
  rw [metaStep]
  rw [show (['l', 'a', 's', 't', ':'] ++ s : Str) = ['l', 'a', 's', 't'] ++ ':' :: s
    from rfl]
  rw [splitFirst_append (by decide)]
  simp only []
  rw [if_neg (by decide), if_pos trivial]

/-- C7: for a connection URL `valkey://<host>|<metadata>` whose metadata tail
ends in a `last:<s>` pair, `parse_valkey_url` sets `last_connection` to the
Gregorian `YYYY-MM-DD HH:MM:SS` rendering of `<s>` read as Unix epoch seconds
when `<s>` parses as a `u64` (`formatTimestamp` embeds the source's
calendar arithmetic, including its leap-year rule), and to the raw string
`<s>` when it does not parse. -/
theorem parse_valkey_url_last {host0 tail s : Str} {ps : List Str}
    (hh : '|' ∉ host0)
    (hsplit : splitOnChar '|' tail = ps ++ [['l', 'a', 's', 't', ':'] ++ s]) :
    (parse_valkey_url none (valkeyUrlPrefix ++ host0 ++ '|' :: tail)).map
        (fun u => u.last_connection) =
      .ok (some (match parseU64 s with
        | some ts => formatTimestamp ts
        | none => s)) := by
  have hp1 : splitFirst '|' ((valkeyUrlPrefix ++ host0) ++ '|' :: tail) =
      some (valkeyUrlPrefix ++ host0, tail) :=
    splitFirst_append (by
      intro hm
      rcases List.mem_append.mp hm with h1 | h2
      · exact absurd h1 (by decide)
      · exact hh h2)
  rw [parse_valkey_url]
  rw [show valkeyUrlPrefix ++ host0 ++ '|' :: tail =
    (valkeyUrlPrefix ++ host0) ++ '|' :: tail by simp]
  rw [hp1]
  simp only []
  rw [hsplit, processMeta_last]
  rw [if_pos (take_prefix_valkey host0)]
  simp [Except.map]

/-- C1 (amended): `count_complete_resp_messages` counts non-overlapping
`CRLF` occurrences, not parsed frames. On a buffer that is the concatenation
of N CRLF-terminated units each free of internal CRLF (so exactly the buffers
where every frame contributes one CRLF, e.g. simple strings, errors and
integers) it returns N, and on any strict prefix of that buffer it returns at
most N - 1. For multi-line frames such as bulk strings the count exceeds the
frame count (see the counterexample). -/
theorem C1_count_crlf_units {ls : List Str} (h : ∀ l ∈ ls, noCRLF l) :
    count_complete_resp_messages (encodeLines ls) = ls.length ∧
    ∀ p t : Str, p ++ t = encodeLines ls → t ≠ [] →
      count_complete_resp_messages p + 1 ≤ ls.length :=
  ⟨count_encodeLines h, fun _ _ hpt ht => count_strict_prefix h hpt ht⟩

/-- C1 counterexample: the wire encoding of the single bulk-string frame
`$5\r\nhello\r\n` is one complete frame (the RESP parser consumes it
entirely), yet `count_complete_resp_messages` returns 2, because the frame
contains two CRLFs. -/
theorem C1_counterexample :
    parse_resp_value (to_resp (RValue.bulkString ['h', 'e', 'l', 'l', 'o'])) =
      .ok [] ∧
    count_complete_resp_messages
      (to_resp (RValue.bulkString ['h', 'e', 'l', 'l', 'o'])) = 2 := by
  have h5 : natRepr 5 = ['5'] := by
    simp [natRepr, natDigitsRev, digitChar10]
  have he : to_resp (RValue.bulkString ['h', 'e', 'l', 'l', 'o']) =
      ['$', '5', crC, lfC, 'h', 'e', 'l', 'l', 'o', crC, lfC] := by
    rw [to_resp]
    simp [crlfS, h5]
  constructor
  · rw [he]
    exact prv_bulk_ok
      (by decide : splitCRLF ['5', crC, lfC, 'h', 'e', 'l', 'l', 'o', crC, lfC] =
        some (['5'], ['h', 'e', 'l', 'l', 'o', crC, lfC]))
      (by decide : parseI64 ['5'] = some 5) (by decide)
      (by decide : (['h', 'e', 'l', 'l', 'o', crC, lfC] : Str).drop (5 : Int).toNat =
        crC :: lfC :: [])
  · rw [he, count_eq_crlfRuns]
    decide

/-- C1 witness: on the two CRLF-terminated single-line frames `+OK\r\n:1\r\n`
the counter returns 2, and every strict prefix counts at most 1. -/
theorem C1_witness :
    count_complete_resp_messages (encodeLines [['+', 'O', 'K'], [':', '1']]) = 2 ∧
    ∀ p t : Str, p ++ t = encodeLines [['+', 'O', 'K'], [':', '1']] → t ≠ [] →
      count_complete_resp_messages p + 1 ≤ 2 :=
  C1_count_crlf_units
    (by decide : ∀ l ∈ [['+', 'O', 'K'], [':', '1']], noCRLF l)

/-- C2 (amended): `ValkeyValue` equality is structural for every variant
except `Maps` (with IEEE semantics on `Double` bit patterns); the source's
`(Maps(_), Maps(_)) => true` arm makes any two `Maps` values compare equal
regardless of their entries, so equality on `Maps` is NOT structural equality
of the key-value multisets. `structEqA` spells the resulting relation out
variant by variant. -/
theorem C2_eq_structural_except_maps :
    ∀ a b : RValue, veq a b = true ↔ structEqA a b :=
  fun a b => veq_iff_structEqA_aux (sizeOf a) a (le_refl _) b

/-- C2 counterexample: the maps `{1: 2}` and `{}` have different key-value
multisets yet compare equal under the source's `PartialEq`. -/
theorem C2_counterexample :
    veq (RValue.maps [(RValue.integer 1, RValue.integer 2)]) (RValue.maps []) =
      true ∧
    [(RValue.integer 1, RValue.integer 2)] ≠ ([] : List (RValue × RValue)) := by
  constructor
  · simp [veq]
  · simp

/-- C3 (amended): for every canonical value of the types the byte parser can
reproduce (RESP2 scalars, bulk forms, arrays, nulls, plus the line-parser
round-trippable `Boolean`, `BigNumber` and `BulkErrors`), re-encoding the
parsed value is byte-identical to the original encoding. This fails for
non-canonical valid encodings: `*-1\r\n` parses to `Null` but `Null`
re-encodes as `$-1\r\n` (see the counterexample). -/
theorem C3_reencode_identity {v : RValue} (hc : canonTop v = true) :
    to_resp (valkeyFrom (to_resp v)) = to_resp v := by
  rw [valkeyFrom_canonTop hc]

/-- C3 counterexample: `*-1\r\n` is a valid null-array encoding, parses to
`Null`, and re-encodes as `$-1\r\n`, which is not byte-identical to the
input. -/
theorem C3_counterexample :
    valkeyFrom ['*', '-', '1', crC, lfC] = RValue.null ∧
    to_resp (valkeyFrom ['*', '-', '1', crC, lfC]) ≠ ['*', '-', '1', crC, lfC] := by
  have hp : parse_from_bytes ['*', '-', '1', crC, lfC] = .ok (.null, []) :=
    pvb_array_null
      (by decide : splitCRLF ['-', '1', crC, lfC] = some (['-', '1'], []))
      (by decide : parseI64 ['-', '1'] = some (-1)) (by decide)
  have hv : valkeyFrom ['*', '-', '1', crC, lfC] = RValue.null := by
    rw [valkeyFrom, hp]
  have ht : to_resp RValue.null = ['$', '-', '1', crC, lfC] := by
    rw [to_resp]
    simp [crlfS]
  refine ⟨hv, ?_⟩
  rw [hv, ht]
  decide

/-- C3 witness: the boolean `true` round-trips byte-identically through
parse and re-encode. -/
theorem C3_witness :
    to_resp (valkeyFrom (to_resp (RValue.boolean true))) =
      to_resp (RValue.boolean true) :=
  C3_reencode_identity (by simp [canonTop, canonB])

/-- C4 (amended): `parse_resp_value` returns the malformed-class errors
`Unknown RESP type` for an unknown leading byte and
`Invalid bulk string length` for a non-numeric length header, and in those
cases reading more bytes is not requested; but a bulk payload whose declared
length plus trailing CRLF fits inside the buffered data while the two bytes
after the payload are not CRLF yields `Incomplete bulk string data` — an
Incomplete-class error (the same one returned when the buffer is genuinely
short), not a malformed one. -/
theorem C4_parser_errors :
    (∀ c ∉ clientSigils, ∀ rest : Str,
      parse_resp_value (c :: rest) = .error "Unknown RESP type") ∧
    (∀ rest lstr t : Str, splitCRLF rest = some (lstr, t) →
      parseI64 lstr = none →
      parse_resp_value ('$' :: rest) = .error "Invalid bulk string length") ∧
    (∀ (rest lstr t : Str) (len : Int), splitCRLF rest = some (lstr, t) →
      parseI64 lstr = some len → 0 ≤ len →
      ∀ (c1 c2 : Char) (t3 : Str), t.drop len.toNat = c1 :: c2 :: t3 →
        ¬(c1 = crC ∧ c2 = lfC) →
        parse_resp_value ('$' :: rest) = .error "Incomplete bulk string data") :=
  ⟨fun _ hc rest => prv_unknown hc rest,
   fun _ _ _ h1 h2 => prv_bulk_badlen h1 h2,
   fun _ _ _ _ h1 h2 h3 _ _ _ h4 h5 => prv_bulk_unterminated h1 h2 h3 h4 h5⟩

/-- C4 counterexample: in `$5\r\nhelloXY`, the declared length 5 plus a
trailing CRLF fits inside the buffered data, but the payload is followed by
`XY`, not CRLF; the claim says this is `Malformed`, while the parser reports
the Incomplete-class error `Incomplete bulk string data`, requesting more
bytes. -/
theorem C4_counterexample :
    parse_resp_value ('$' :: ['5', crC, lfC, 'h', 'e', 'l', 'l', 'o', 'X', 'Y']) =
      .error "Incomplete bulk string data" :=
  prv_bulk_unterminated
    (by decide : splitCRLF ['5', crC, lfC, 'h', 'e', 'l', 'l', 'o', 'X', 'Y'] =
      some (['5'], ['h', 'e', 'l', 'l', 'o', 'X', 'Y']))
    (by decide : parseI64 ['5'] = some 5) (by decide)
    (by decide : (['h', 'e', 'l', 'l', 'o', 'X', 'Y'] : Str).drop (5 : Int).toNat =
      'X' :: 'Y' :: []) (by decide)

/-- C4 witness: the three error classes at concrete inputs — `@x` is an
unknown type byte, `$a\r\n` has a non-numeric length header, and `$1\r\nhXY`
has a length-1 payload with buffered but non-CRLF terminator bytes. -/
theorem C4_witness :
    parse_resp_value ['@', 'x'] = .error "Unknown RESP type" ∧
    parse_resp_value ('$' :: ['a', crC, lfC]) =
      .error "Invalid bulk string length" ∧
    parse_resp_value ('$' :: ['1', crC, lfC, 'h', 'X', 'Y']) =
      .error "Incomplete bulk string data" :=
  ⟨C4_parser_errors.1 '@' (by decide) ['x'],
   C4_parser_errors.2.1 ['a', crC, lfC] ['a'] []
     (by decide : splitCRLF ['a', crC, lfC] = some (['a'], []))
     (by decide : parseI64 ['a'] = none),
   C4_parser_errors.2.2 ['1', crC, lfC, 'h', 'X', 'Y'] ['1'] ['h', 'X', 'Y'] 1
     (by decide : splitCRLF ['1', crC, lfC, 'h', 'X', 'Y'] =
       some (['1'], ['h', 'X', 'Y']))
     (by decide : parseI64 ['1'] = some 1) (by decide) 'X' 'Y' []
     (by decide : (['h', 'X', 'Y'] : Str).drop (1 : Int).toNat = 'X' :: 'Y' :: [])
     (by decide)⟩

/-- C5 (amended): the tokenizer keeps a single `in_quotes` state that both
quote characters toggle: either quote opens a quoted token and EITHER quote
closes it (a closing quote of the other kind is not taken literally).
Consequently `"x'y"` tokenizes as the two tokens `x` and `y`, not as the
single token `x'y`: here `a` is the quoted token cut short by the single
quote and `b` the remainder closed by the final double quote. -/
theorem C5_quotes_interchangeable {a b : Str}
    (ha : ∀ c ∈ a, c ≠ dqC ∧ c ≠ sqC ∧ c ≠ bsC)
    (hb : ∀ c ∈ b, c ≠ dqC ∧ c ≠ sqC ∧ c ≠ spC) (hbne : b ≠ []) :
    split_commands (dqC :: (a ++ sqC :: (b ++ [dqC]))) = [a, b] :=
  split_commands_interchange ha hb hbne

/-- C5 counterexample: tokenizing `"x'y"` yields `[x, y]`, not the single
token `x'y` the claim promises. -/
theorem C5_counterexample :
    split_commands [dqC, 'x', sqC, 'y', dqC] = [['x'], ['y']] ∧
    split_commands [dqC, 'x', sqC, 'y', dqC] ≠ [['x', sqC, 'y']] := by
  have h : split_commands [dqC, 'x', sqC, 'y', dqC] = [['x'], ['y']] :=
    split_commands_interchange
      (by decide : ∀ c ∈ (['x'] : Str), c ≠ dqC ∧ c ≠ sqC ∧ c ≠ bsC)
      (by decide : ∀ c ∈ (['y'] : Str), c ≠ dqC ∧ c ≠ sqC ∧ c ≠ spC)
      (by decide)
  exact ⟨h, by rw [h]; decide⟩

/-- C5 witness: `"a'b"` tokenizes as the two tokens `a` and `b`. -/
theorem C5_witness :
    split_commands [dqC, 'a', sqC, 'b', dqC] = [['a'], ['b']] :=
  C5_quotes_interchangeable
    (by decide : ∀ c ∈ (['a'] : Str), c ≠ dqC ∧ c ≠ sqC ∧ c ≠ bsC)
    (by decide : ∀ c ∈ (['b'] : Str), c ≠ dqC ∧ c ≠ sqC ∧ c ≠ spC)
    (by decide)

/-- C6 witness: `redis` at version `7.2.4` is rejected as unsupported, while
`valkey` at version `8.1.0` is accepted. -/
theorem C6_witness :
    helloGate redisS ['7', '.', '2', '.', '4'] = .unsupportedError ∧
    helloGate valkeyS ['8', '.', '1', '.', '0'] = .accepted :=
  ⟨(helloGate_characterization
      (by decide : versionTriple ['7', '.', '2', '.', '4'] = some (7, 2, 4))).1.mpr
      (Or.inl (Or.inl (by decide))),
   (helloGate_characterization
      (by decide : versionTriple ['8', '.', '1', '.', '0'] = some (8, 1, 0))).2
      rfl (by decide)⟩

/-- C7 witness: the URL `valkey://h|last:9` renders `last_connection` as the
calendar form of epoch second 9 (`1970-01-01 00:00:09`). -/
theorem C7_witness :
    (parse_valkey_url none (valkeyUrlPrefix ++ ['h'] ++ '|' ::
        (['l', 'a', 's', 't', ':'] ++ ['9']))).map (fun u => u.last_connection) =
      .ok (some (formatTimestamp 9)) :=
  parse_valkey_url_last (by decide)
    (by decide : splitOnChar '|' (['l', 'a', 's', 't', ':'] ++ ['9']) =
      [] ++ [['l', 'a', 's', 't', ':'] ++ ['9']])

theorem byteSigils_subset_lineSigils : ∀ c : Char, c ∈ byteSigils → c ∈ lineSigils := by
  intro c hc
  fin_cases hc <;> decide

theorem linesFn_single {s : Str} (hne : s ≠ []) (h : lfC ∉ s) : linesFn s = [s] := by
  have hall : ∀ c ∈ s, (fun c => decide (c ≠ lfC)) c = true := by
    intro c hc
    simp only [decide_eq_true_eq]
    intro he
    subst he
    exact h hc
  have hd : s.dropWhile (fun c => decide (c ≠ lfC)) = [] :=
    List.dropWhile_eq_nil_iff.mpr hall
  have htd := List.takeWhile_append_dropWhile
    (p := fun c => decide (c ≠ lfC)) (l := s)
  rw [hd, List.append_nil] at htd
  rw [linesFn, if_neg hne]
  split
  · rename_i heq
    rw [htd]
  · rename_i c9 restS heq
    rw [hd] at heq
    cases heq

/-- C8: `From<&str>` conversion is total — its result type carries no error,
and whenever byte-level parsing fails for any reason (every RESP3-only type
tag included, since the byte parser knows only `+ - : $ *`), the conversion
falls back to line-based parsing of the input; moreover any top-level input
whose first character is not one of the 13 recognized sigils (here: a
nonempty single-line input) parses to `Null` rather than being rejected. -/
theorem C8_from_str_total (s : Str) :
    (∀ e : String, parse_from_bytes s = .error e →
      valkeyFrom s = (parse_value (linesFn s)).1) ∧
    (s ≠ [] → s.headD '_' ∉ lineSigils → lfC ∉ s → valkeyFrom s = .null) := by
  constructor
  · intro e he
    exact valkeyFrom_fallback he
  · intro hne hhead hlf
    obtain ⟨c, r, rfl⟩ : ∃ c r, s = c :: r := by
      cases s with
      | nil => exact absurd rfl hne
      | cons c r => exact ⟨c, r, rfl⟩
    have hc : c ∉ byteSigils := fun hm => hhead (byteSigils_subset_lineSigils c hm)
    have herr := pvb_unknown hc r
    rw [valkeyFrom_fallback herr, linesFn_single hne hlf]
    exact parse_value_wildcard hhead []

/-- C8 witness: the RESP3-only tag `#` fails byte parsing and falls back to
the line parser (yielding the boolean), and the sigil-free input `hi` parses
to `Null`. -/
theorem C8_witness :
    valkeyFrom ['h', 'i'] = (parse_value (linesFn ['h', 'i'])).1 ∧
    valkeyFrom ['h', 'i'] = RValue.null :=
  ⟨(C8_from_str_total ['h', 'i']).1 "Unknown RESP type"
     (pvb_unknown (by decide) ['i']),
   (C8_from_str_total ['h', 'i']).2 (by decide) (by decide) (by decide)⟩

/-- C9 (amended): the Eq/Hash contract `a == b → hash(a) == hash(b)` holds
for every pair of values in which no `Double` payload is the negative-zero
bit pattern. Each variant hashes its discriminant plus payload, `Double`
hashes its bit pattern, and all `Maps` hash to the fixed sentinel
`0x7fffffff` (which is why the all-Maps-equal arm of `PartialEq` stays
consistent with `Hash`). Without the restriction the contract FAILS:
`0.0 == -0.0` under IEEE equality, but they hash their distinct bit patterns
(see the counterexample). -/
theorem C9_hash_respects_eq (a b : RValue) (ha : noNegZero a = true)
    (hb : noNegZero b = true) (hv : veq a b = true) :
    hashStream a = hashStream b :=
  hash_eq_of_veq_aux (sizeOf a) a (le_refl _) ha b hb hv

/-- C9 counterexample: `Double(0.0)` and `Double(-0.0)` compare equal
(IEEE `==` on floats) yet hash different words, since `Hash` writes the raw
`to_bits` patterns `0` and `2^63`. -/
theorem C9_counterexample :
    veq (RValue.double 0) (RValue.double (2 ^ 63)) = true ∧
    hashStream (RValue.double 0) ≠ hashStream (RValue.double (2 ^ 63)) := by
  constructor
  · simp [veq, f64Eq, f64IsZero]
  · simp [hashStream]

/-- C9 witness: two structurally equal arrays `[5]` with no negative zeros
hash identically. -/
theorem C9_witness :
    hashStream (RValue.array [RValue.integer 5]) =
      hashStream (RValue.array [RValue.integer 5]) :=
  C9_hash_respects_eq _ _ (by simp [noNegZero, noNegZeroList])
    (by simp [noNegZero, noNegZeroList])
    (by simp [veq, veqList])

/-- C10: in the tokenizer a closing quote always emits the current token,
even when it is empty — the two-character input of an opening and a closing
double quote yields exactly the one empty token — whereas on quote-free
input runs of spaces never produce an empty token. -/
theorem C10_closing_quote_emits :
    split_commands [dqC, dqC] = [[]] ∧
    ∀ s : Str, (∀ c ∈ s, c ≠ dqC ∧ c ≠ sqC) → [] ∉ split_commands s := by
  constructor
  · rw [split_commands, scLoop]
    rw [if_neg (by simp : ¬ (dqC = bsC ∧ false = true))]
    rw [if_pos (Or.inl rfl)]
    rw [if_neg (by simp)]
    rw [scLoop]
    rw [if_neg (by decide : ¬ (dqC = bsC ∧ true = true))]
    rw [if_pos (Or.inl rfl)]
    rw [if_pos rfl]
    rw [scLoop]
    rw [if_pos rfl]
  · intro s hs
    exact scLoop_no_empty hs []

/-- C10 witness: `""` yields the one empty token, and the quote-free input
of an `a` between space runs yields no empty token. -/
theorem C10_witness :
    split_commands [dqC, dqC] = [[]] ∧
    [] ∉ split_commands [spC, spC, 'a', spC, spC] :=
  ⟨C10_closing_quote_emits.1,
   C10_closing_quote_emits.2 [spC, spC, 'a', spC, spC] (by decide)⟩
